import Mathlib

/-!
# Verification of the `consistenthash` ring (davies/groupcache)

Shallow embedding of `src/consistenthash/consistenthash.go` (the current
version of the package: the one defining `Get2`, the per-node hash cache
`hashs`, and the iterative load adjuster `adjust`).

Modelling conventions:
* Go strings are Lean `String`; the pluggable `Hash` function
  (`func(data []byte) uint32`) is modelled as `String → Nat`, and every
  application site truncates with `% 2^32` to reflect the `uint32` return
  type (`hv` below).  `int(...)` conversion of a `uint32` on a 64-bit
  platform is the identity on `0 ≤ v < 2^32`.
* Go maps are modelled as association lists.  Go's map iteration order is
  unspecified (randomised); the embedding fixes one concrete order
  (insertion order: updates in place, new keys appended at the end).
  Results that depend on the iteration order are therefore results that
  are nondeterministic in Go.
* `m.hashMap` is written by overwriting inserts and never cleared; it is
  modelled as a prepend list with first-match lookup, which gives exactly
  the "most recent insert wins" behaviour and keeps stale entries.
* The floating-point expression inside `adjust`
  (`int(float64(rep)*(expect-actual)/float64(expect)*scale)`, lines
  272-275) is the only floating-point computation in the package.  It is
  abstracted as an integer-valued parameter
  `dF : Int → Int → Int → Int → Int` taking the exact integer data the
  float expression is computed from: `dF v rep w W` stands for
  `int(float64(rep)*(expect-actual)/float64(expect)*0.75)` where
  `actual = v / 2^32` and `expect = w / W`.  Everything around it
  (the guard on line 276, the update, the `changed` flag, the loop) is
  embedded exactly.
* Go `panic` is modelled as an error return (`Option String` second
  component) that leaves the state unchanged, reflecting that the panic
  in `AddWithWeight` fires before any field is mutated.
-/

set_option maxRecDepth 100000

namespace ConsistentHash

/-- Association-list lookup, first match wins (models Go map read). -/
def alookup {α β : Type} [BEq α] (l : List (α × β)) (k : α) : Option β :=
  (l.find? (fun p => p.1 == k)).map (·.2)

/-- Association-list write (models Go map write): update the existing
entry in place, or append a new entry at the end. -/
def aset {α β : Type} [BEq α] (l : List (α × β)) (k : α) (v : β) : List (α × β) :=
  if (l.find? (fun p => p.1 == k)).isSome then
    l.map (fun p => if p.1 == k then (k, v) else p)
  else l ++ [(k, v)]

/-- Association-list delete (models Go `delete`). -/
def adel {α β : Type} [BEq α] (l : List (α × β)) (k : α) : List (α × β) :=
  l.filter (fun p => !(p.1 == k))

/-- `stat[k] += v` with Go's zero-value default for missing keys. -/
def aadd {α : Type} [BEq α] (l : List (α × Int)) (k : α) (v : Int) : List (α × Int) :=
  aset l k ((alookup l k).getD 0 + v)

/-- The ring structure (`type Map struct`, lines 166-173). -/
structure Map where
  hash : String → Nat
  replica : Int
  keys : List Nat
  hashMap : List (Nat × String)
  hashs : List (String × List Nat)
  replicas : List (String × Int)

/-- `New` (lines 175-187).  The `nil`-hash default (crc32) is outside the
model: a hash function is always supplied. -/
def New (replicas : Int) (fn : String → Nat) : Map :=
  { hash := fn, replica := replicas, keys := [], hashMap := [], hashs := [], replicas := [] }

/-- Application of the hash function: `int(m.hash([]byte(s)))`.  The
`uint32` return type truncates to 32 bits. -/
def hv (m : Map) (s : String) : Nat :=
  m.hash s % 2 ^ 32

/-- `IsEmpty` (lines 190-192). -/
def IsEmpty (m : Map) : Bool :=
  m.replicas.length == 0

/-- The inner loop of `calc` for one node (lines 231-243): for
`i = 0 .. r-1` reuse `hs[i]` when `i < len(hs)`, otherwise compute
`hash(itoa(i) + key)` and append it to the cache.  The resulting cache is
the old one extended with the freshly computed values for indices
`len(hs) .. r-1`; the hashes contributed to the ring are its first `r`
entries (`(growCache ...).take r`). -/
def growCache (f : Nat → Nat) (hs : List Nat) (r : Nat) : List Nat :=
  hs ++ ((List.range r).drop hs.length).map f

/-- One step of `calc`'s outer loop: process node `key` with weight `r`,
accumulating (ring keys, hash→owner table, caches). -/
def calcNode (m : Map) (acc : List Nat × List (Nat × String) × List (String × List Nat))
    (kr : String × Int) : List Nat × List (Nat × String) × List (String × List Nat) :=
  let hs := (alookup acc.2.2 kr.1).getD []
  let hs' := growCache (fun i => hv m (toString i ++ kr.1)) hs kr.2.toNat
  let used := hs'.take kr.2.toNat
  (acc.1 ++ used,
   used.foldl (fun hm h => (h, kr.1) :: hm) acc.2.1,
   aset acc.2.2 kr.1 hs')

/-- `calc` (lines 224-246): rebuild `m.keys` from scratch from the given
weight map, reusing/extending the per-node hash caches, writing every
live (hash, owner) pair into `hashMap`, and sorting the keys.  (The
`total` variable computed on lines 225-228 is dead code and omitted.) -/
def calcRing (m : Map) (reps : List (String × Int)) : Map :=
  let st := reps.foldl (calcNode m) ([], m.hashMap, m.hashs)
  { m with keys := st.1.insertionSort (· ≤ ·), hashMap := st.2.1, hashs := st.2.2 }

/-- Owner of a ring position: `m.hashMap[h]` with Go's `""` default. -/
def ownerOf (m : Map) (h : Nat) : String :=
  (alookup m.hashMap h).getD ""

/-- The arc-length statistics of one pass (lines 265-269):
`stat[owner(keys[0])] = keys[0] + 2^32 - keys[last]`, then for each
consecutive pair `stat[owner(keys[i+1])] += keys[i+1] - keys[i]`.
(When `m.keys` is empty the Go code would panic on `m.keys[0]`; the model
returns the empty statistic.) -/
def computeStat (m : Map) : List (String × Int) :=
  match m.keys with
  | [] => []
  | k0 :: _ =>
    let kl := m.keys.getLast?.getD 0
    let stat0 : List (String × Int) := [(ownerOf m k0, (k0 : Int) + 2 ^ 32 - (kl : Int))]
    (m.keys.zip m.keys.tail).foldl
      (fun st pr => aadd st (ownerOf m pr.2) ((pr.2 : Int) - (pr.1 : Int)))
      stat0

/-- The guarded weight update of one node in one pass (lines 276-279):
`if adjust > 1 || adjust < 1 { reps[k] += adjust; changed = true }`.
Returns the new working weight and whether the update fired. -/
def applyOne (delta : Int) (rep : Int) : Int × Bool :=
  if delta > 1 ∨ delta < 1 then (rep + delta, true) else (rep, false)

/-- One pass over the statistics (lines 270-280): for each `(k, v)` in
`stat`, compute the delta (abstract float expression `dF`) from
`v`, the working weight `reps[k]`, the target weight `m.replicas[k]` and
the total target weight `W`, and apply `applyOne`. -/
def applyPass (dF : Int → Int → Int → Int → Int) (m : Map) (stat : List (String × Int))
    (reps : List (String × Int)) (W : Int) : List (String × Int) × Bool :=
  stat.foldl
    (fun acc kv =>
      let rep := (alookup acc.1 kv.1).getD 0
      let delta := dF kv.2 rep ((alookup m.replicas kv.1).getD 0) W
      let u := applyOne delta rep
      (if u.2 then aset acc.1 kv.1 u.1 else acc.1, acc.2 || u.2))
    (reps, false)

/-- The bounded iteration of `adjust` (lines 264-285): up to `tries`
passes; after a pass that applied at least one update, rebuild the ring
from the working weights and continue; stop at the first pass that
applied none. -/
def adjustLoop (dF : Int → Int → Int → Int → Int) (W : Int) :
    Nat → Map → List (String × Int) → Map
  | 0, m, _ => m
  | t + 1, m, reps =>
    let stat := computeStat m
    let pr := applyPass dF m stat reps W
    if pr.2 then adjustLoop dF W t (calcRing m pr.1) pr.1 else m

/-- Number of passes executed by `adjustLoop` (each loop iteration that
runs, whether or not it changes anything, counts as one pass). -/
def adjustLoopCount (dF : Int → Int → Int → Int → Int) (W : Int) :
    Nat → Map → List (String × Int) → Nat
  | 0, _, _ => 0
  | t + 1, m, reps =>
    let stat := computeStat m
    let pr := applyPass dF m stat reps W
    if pr.2 then adjustLoopCount dF W t (calcRing m pr.1) pr.1 + 1 else 1

/-- Total target weight (`var replicas int; for _, r := ... replicas += r`,
lines 257-262). -/
def sumWeights (l : List (String × Int)) : Int :=
  l.foldl (fun a p => a + p.2) 0

/-- `adjust` (lines 249-286): no-op unless the ring is dirty
(`m.keys` empty); rebuild from the target weights; skip the iterative
phase when fewer than 2 nodes are registered or the default replica
count is below 10; otherwise run up to `tries` correction passes starting
from a copy of the target weights. -/
def adjust (dF : Int → Int → Int → Int → Int) (m : Map) (tries : Nat) : Map :=
  if m.keys ≠ [] then m
  else
    let m1 := calcRing m m.replicas
    if m1.replicas.length ≤ 1 ∨ m1.replica < 10 then m1
    else adjustLoop dF (sumWeights m1.replicas) tries m1 m1.replicas

/-- `AddWithWeight` (lines 202-212).  A weight below 1 panics
(`panic("replica should be positive")`) before any mutation: modelled as
an error return with the state unchanged.  Otherwise, when the stored
weight differs, empty the keys (mark dirty), store the weight, and run
`adjust(5, 0.75)`. -/
def AddWithWeight (dF : Int → Int → Int → Int → Int) (m : Map) (key : String)
    (replica : Int) : Map × Option String :=
  if replica < 1 then (m, some "replica should be positive")
  else if (alookup m.replicas key).getD 0 ≠ replica then
    (adjust dF { m with keys := [], replicas := aset m.replicas key replica } 5, none)
  else (m, none)

/-- `Add` (lines 195-199): add each key with the instance default weight;
a panic propagates (remaining keys are not processed). -/
def Add (dF : Int → Int → Int → Int → Int) (m : Map) (ks : List String) :
    Map × Option String :=
  ks.foldl
    (fun acc k =>
      match acc.2 with
      | none => AddWithWeight dF acc.1 k acc.1.replica
      | some e => (acc.1, some e))
    (m, none)

/-- `Remove` (lines 215-222): when present, drop the weight entry and the
hash cache, mark dirty, and run `adjust(5, 0.75)`. -/
def Remove (dF : Int → Int → Int → Int → Int) (m : Map) (key : String) : Map :=
  if (alookup m.replicas key).isSome then
    adjust dF { m with replicas := adel m.replicas key, hashs := adel m.hashs key, keys := [] } 5
  else m

/-- The body of Go's `sort.Search` loop
(`for i < j { h := (i+j)/2; if !f(h) { i = h+1 } else { j = h } }`),
with an explicit fuel that bounds the number of iterations; `j - i` fuel
always suffices (`searchLoop` below). -/
def searchGo (f : Nat → Bool) : Nat → Nat → Nat → Nat
  | 0, i, _ => i
  | fuel + 1, i, j =>
    if i < j then
      let mid := (i + j) / 2
      if f mid then searchGo f fuel i mid else searchGo f fuel (mid + 1) j
    else i

/-- Go's `sort.Search`: binary search returning the least index in
`[i, j)` satisfying `f` (for a monotone `f`), or `j`. -/
def searchLoop (f : Nat → Bool) (i j : Nat) : Nat :=
  searchGo f (j - i) i j

/-- `lookup` (lines 297-308): binary-search the first ring index whose
position is `≥ hash(key)`; when none exists wrap to index 0. -/
def lookupIdx (m : Map) (key : String) : Nat :=
  let h := hv m key
  let idx := searchLoop (fun i => decide (h ≤ m.keys.getD i 0)) 0 m.keys.length
  if idx = m.keys.length then 0 else idx

/-- `Get` (lines 289-295).  `none` models the out-of-range panic that Go
would hit if `m.keys` were empty while nodes are registered (possible
only through the float balancer collapsing every working weight). -/
def Get (m : Map) (key : String) : Option String :=
  if IsEmpty m then some ""
  else if m.keys = [] then none
  else some (ownerOf m (m.keys.getD (lookupIdx m key) 0))

/-- The forward scan of `Get2` (lines 320-325): advance (with wraparound)
while the position's owner equals `first`.  Fuel `m.keys.length` suffices
to visit every position once; `none` models the infinite loop Go enters
when every position's owner is `first`. -/
def scan2 (m : Map) (first : String) : Nat → Nat → Option Nat
  | 0, _ => none
  | fuel + 1, i =>
    if ownerOf m (m.keys.getD i 0) = first then
      scan2 m first fuel (if i + 1 = m.keys.length then 0 else i + 1)
    else some i

/-- `Get2` (lines 311-329).  `none` models non-termination (see `scan2`)
or the empty-keys panic (see `Get`). -/
def Get2 (m : Map) (key : String) : Option (String × String) :=
  if IsEmpty m then some ("", "")
  else if m.keys = [] then none
  else
    let idx := lookupIdx m key
    let first := ownerOf m (m.keys.getD idx 0)
    if 1 < m.replicas.length then
      match scan2 m first m.keys.length idx with
      | some j => some (first, ownerOf m (m.keys.getD j 0))
      | none => none
    else some (first, "")

/-- One mutation of the public API. -/
inductive Op where
  | add (ks : List String)
  | addW (k : String) (r : Int)
  | rem (k : String)

/-- Run one mutation; a panic (error) leaves the state as the operation
left it (for `AddWithWeight`, unchanged). -/
def runOp (dF : Int → Int → Int → Int → Int) (m : Map) : Op → Map
  | Op.add ks => (Add dF m ks).1
  | Op.addW k r => (AddWithWeight dF m k r).1
  | Op.rem k => Remove dF m k

/-- Run a sequence of mutations from a fresh ring. -/
def runOps (dF : Int → Int → Int → Int → Int) (replica : Int) (h : String → Nat)
    (ops : List Op) : Map :=
  ops.foldl (runOp dF) (New replica h)

/-! ## The concrete scenario (spec §8, `TestHashing`) -/

/-- Decimal value of a digit string (`strconv.Atoi` on numeric input). -/
def digitsVal (cs : List Char) : Nat :=
  cs.foldl (fun a c => a * 10 + (c.toNat - 48)) 0

/-- The test's hash function: a numeric string parses to its value. -/
def numHash (s : String) : Nat :=
  digitsVal s.data

/-- Delta function instance for scenarios where the iterative balancer
never runs (default replica count below 10). -/
def dZero : Int → Int → Int → Int → Int :=
  fun _ _ _ _ => 0

/-- Ring after `New(3, numHash); Add("6","4","2")`. -/
def scenario1 : Map :=
  (Add dZero (New 3 numHash) ["6", "4", "2"]).1

/-- Ring after the further `Add("8")`. -/
def scenario2 : Map :=
  (Add dZero scenario1 ["8"]).1

/-! ## A perfectly balanced two-node ring with the balancer active

Default replica count 16 (≥ 10) and two nodes, so `adjust` runs its
iterative phase.  The hash places node `a`'s virtual keys `"0a"`..`"15a"`
at the even multiples of `2^27` and node `b`'s at the odd multiples:
every position owns an arc of exactly `2^27`, so each node owns exactly
half the circle.  The float expression then computes
`16*(0.5-0.5)/0.5*0.75 = 0.0` exactly (all operands are exactly
representable), hence `int(...) = 0` for both nodes: `dZero` is the
faithful delta function for every pass of this configuration. -/

/-- Hash for the balanced scenario: `"<i>a" ↦ 2*i*2^27`,
`"<i>b" ↦ (2*i+1)*2^27`. -/
def hAlt (s : String) : Nat :=
  let cs := s.data
  (if cs.getLast? = some 'a' then 2 * digitsVal cs.dropLast
   else 2 * digitsVal cs.dropLast + 1) * 2 ^ 27

/-- State after `New(16, hAlt); AddWithWeight("a", 16)`. -/
def mC6a : Map :=
  (AddWithWeight dZero (New 16 hAlt) "a" 16).1

/-- The dirty state `AddWithWeight("b", 16)` builds before calling
`adjust(5, 0.75)` (lines 208-210). -/
def mC6pre : Map :=
  { mC6a with keys := [], replicas := aset mC6a.replicas "b" 16 }

/-- The ring `adjust` rebuilds from the target weights (line 253) before
entering its iterative phase. -/
def mC6cal : Map :=
  calcRing mC6pre mC6pre.replicas

/-! ## Claim theorems -/

/-- C1: with the numeric-string hash and default replica count 3,
`Add("6","4","2")` yields exactly the positions
{2,4,6,12,14,16,22,24,26} owned by nodes 2,4,6 in pattern, the four
lookups return the spec's owners (with wraparound for "27"), and after
`Add("8")` the positions 8,18,28 appear and "27" resolves to "8". -/
theorem concrete_scenario_ring_and_lookups :
    scenario1.keys = [2, 4, 6, 12, 14, 16, 22, 24, 26]
    ∧ scenario1.keys.map (ownerOf scenario1) = ["2", "4", "6", "2", "4", "6", "2", "4", "6"]
    ∧ Get scenario1 "2" = some "2"
    ∧ Get scenario1 "11" = some "2"
    ∧ Get scenario1 "23" = some "4"
    ∧ Get scenario1 "27" = some "2"
    ∧ scenario2.keys = [2, 4, 6, 8, 12, 14, 16, 18, 22, 24, 26, 28]
    ∧ Get scenario2 "27" = some "8" := by
  refine ⟨by decide, by decide, by decide, by decide, by decide, by decide, by decide, by decide⟩

/-- C8: querying a ring with no registered nodes is not an error: `Get`
returns the "no owner" sentinel `""` and `Get2` returns it for both
owners. -/
theorem empty_ring_query_returns_sentinel (m : Map) (key : String)
    (h : m.replicas = []) :
    Get m key = some "" ∧ Get2 m key = some ("", "") := by
  have he : IsEmpty m = true := by simp [IsEmpty, h]
  constructor
  · simp [Get, he]
  · simp [Get2, he]

/-- C8 witness: the fresh ring is empty and both lookups return the
sentinel. -/
theorem empty_ring_query_returns_sentinel_witness :
    Get (New 3 numHash) "x" = some "" ∧ Get2 (New 3 numHash) "x" = some ("", "") :=
  empty_ring_query_returns_sentinel (New 3 numHash) "x" rfl

/-- C4: `AddWithWeight` with a weight below 1 fails that call with the
invalid-argument error (the panic fires before any mutation, so a
recovering caller observes the node's stored weight and the whole ring
state unchanged). -/
theorem addwithweight_invalid_weight_rejected
    (dF : Int → Int → Int → Int → Int) (m : Map) (key : String) (r : Int)
    (h : r < 1) :
    AddWithWeight dF m key r = (m, some "replica should be positive") := by
  simp only [AddWithWeight, if_pos h]

/-- C4 witness: weight 0 is rejected and the state is returned
untouched. -/
theorem addwithweight_invalid_weight_rejected_witness :
    (0 : Int) < 1
    ∧ AddWithWeight dZero (New 3 numHash) "a" 0
      = (New 3 numHash, some "replica should be positive") :=
  ⟨by decide, addwithweight_invalid_weight_rejected dZero (New 3 numHash) "a" 0 (by decide)⟩

/-- C5 (code bug): the guard on line 276 is `adjust > 1 || adjust < 1`,
i.e. it applies every delta except exactly `+1`.  A delta of `-1`
changes the working weight and marks the pass changed, and a delta of
`0` marks the pass changed, both contradicting the documented dead-band
"apply only if |delta| ≥ 2".  (The evident intent was `adjust < -1`.) -/
theorem adjust_guard_applies_unit_negative_deltas :
    (∀ d rep : Int, ((applyOne d rep).2 = true ↔ d ≠ 1))
    ∧ applyOne (-1) 5 = (4, true)
    ∧ applyOne 0 7 = (7, true)
    ∧ applyOne 1 9 = (9, false)
    ∧ applyOne 2 4 = (6, true) := by
  refine ⟨fun d rep => ?_, by decide, by decide, by decide, by decide⟩
  by_cases h : d > 1 ∨ d < 1
  · rw [applyOne, if_pos h]
    simp only [true_iff]
    omega
  · rw [applyOne, if_neg h]
    simp only [Bool.false_eq_true, false_iff, ne_eq, not_not]
    omega

/-- C6 (code bug): the adjuster always terminates within `tries` passes
(first conjunct, fully general), but it does not stop as soon as a pass
makes no change to any working weight: on the perfectly balanced ring
`mC6cal` every computed delta is exactly `0` (the float expression
evaluates to `0.0` exactly, so `dZero` is its faithful abstraction), a
pass returns the working weights unchanged yet flags the pass as changed
(second conjunct), and the loop therefore runs all 5 passes (third
conjunct).  The last conjunct ties the counted loop to the actual
`AddWithWeight("b", 16)` call.  Cause: the guard bug of line 276
(`adjust < 1` instead of `adjust < -1`) treats an applied `0` as a
change. -/
theorem adjuster_bounded_but_ignores_no_change_passes :
    (∀ (dF : Int → Int → Int → Int → Int) (W : Int) (t : Nat) (m : Map)
      (reps : List (String × Int)), adjustLoopCount dF W t m reps ≤ t)
    ∧ applyPass dZero mC6cal (computeStat mC6cal) mC6cal.replicas 32
      = (mC6cal.replicas, true)
    ∧ adjustLoopCount dZero 32 5 mC6cal mC6cal.replicas = 5
    ∧ (AddWithWeight dZero mC6a "b" 16).1.keys
      = (adjustLoop dZero 32 5 mC6cal mC6cal.replicas).keys
    ∧ (AddWithWeight dZero mC6a "b" 16).1.replicas = [("a", 16), ("b", 16)] := by
  refine ⟨fun dF W t => ?_, by decide, by decide, by decide, by decide⟩
  induction t with
  | zero => intro m reps; simp [adjustLoopCount]
  | succ t ih =>
    intro m reps
    simp only [adjustLoopCount]
    split
    · exact Nat.succ_le_succ (ih _ _)
    · omega



/-- Correctness of the binary-search loop: with enough fuel and a
monotone predicate, the result `r` is in `[i, j]`, no index below `r`
satisfies `f`, and `r` satisfies `f` unless `r = j`. -/
theorem searchGo_spec (f : Nat → Bool) :
    ∀ (fuel i j : Nat), i ≤ j → j - i ≤ fuel →
      (∀ a b : Nat, a ≤ b → b < j → f a = true → f b = true) →
      i ≤ searchGo f fuel i j ∧ searchGo f fuel i j ≤ j
      ∧ (∀ k, i ≤ k → k < searchGo f fuel i j → f k = false)
      ∧ (searchGo f fuel i j < j → f (searchGo f fuel i j) = true) := by
  intro fuel
  induction fuel with
  | zero =>
    intro i j hij hle _
    have hij' : i = j := by omega
    subst hij'
    simp only [searchGo]
    exact ⟨le_refl _, le_refl _, fun k h1 h2 => by omega, fun h => by omega⟩
  | succ fuel ih =>
    intro i j hij hle hmono
    simp only [searchGo]
    by_cases hlt : i < j
    · rw [if_pos hlt]
      have hmi : i ≤ (i + j) / 2 := by omega
      have hmj : (i + j) / 2 < j := by omega
      cases hf : f ((i + j) / 2) with
      | false =>
        simp only [Bool.false_eq_true, if_false]
        obtain ⟨h1, h2, h3, h4⟩ := ih ((i + j) / 2 + 1) j (by omega) (by omega) hmono
        refine ⟨by omega, h2, ?_, h4⟩
        intro k hik hkr
        by_cases hkm : k ≤ (i + j) / 2
        · cases hfk : f k with
          | false => rfl
          | true => exact absurd (hmono k _ hkm hmj hfk) (by simp [hf])
        · exact h3 k (by omega) hkr
      | true =>
        simp only [if_true]
        obtain ⟨h1, h2, h3, h4⟩ := ih i ((i + j) / 2) hmi (by omega)
          (fun a b hab hbj hfa => hmono a b hab (by omega) hfa)
        refine ⟨h1, by omega, h3, ?_⟩
        intro _
        rcases Nat.lt_or_ge (searchGo f fuel i ((i + j) / 2)) ((i + j) / 2) with h | h
        · exact h4 h
        · have : searchGo f fuel i ((i + j) / 2) = (i + j) / 2 := by omega
          rw [this]
          exact hf
    · rw [if_neg hlt]
      exact ⟨le_refl _, hij, fun k h1 h2 => by omega, fun h => by omega⟩



/-- Head-with-default of a non-empty list is its first element. -/
theorem headD_eq_get (l : List Nat) (h : 0 < l.length) : l.headD 0 = l.get ⟨0, h⟩ := by
  cases l with
  | nil => simp at h
  | cons a t => rfl

/-- C2: on a non-empty ring (sorted keys, at least one registered node),
`Get` returns the owner of the smallest ring position `≥ hash(key)`
when one exists, and otherwise (hash beyond the maximum position) wraps
around and returns the owner of the minimum ring position. -/
theorem get_owner_of_smallest_geq_position (m : Map) (key : String)
    (hk : m.keys ≠ []) (hr : m.replicas ≠ [])
    (hs : m.keys.Sorted (· ≤ ·)) :
    ((∃ q ∈ m.keys, hv m key ≤ q) →
      ∃ pos ∈ m.keys, hv m key ≤ pos ∧ (∀ p ∈ m.keys, hv m key ≤ p → pos ≤ p)
        ∧ Get m key = some (ownerOf m pos))
    ∧ ((∀ p ∈ m.keys, p < hv m key) →
      Get m key = some (ownerOf m (m.keys.headD 0))
        ∧ ∀ p ∈ m.keys, m.keys.headD 0 ≤ p) := by
  set n := m.keys.length with hn
  set f : Nat → Bool := fun i => decide (hv m key ≤ m.keys.getD i 0) with hfdef
  have hmono : ∀ a b : Nat, a ≤ b → b < n → f a = true → f b = true := by
    intro a b hab hbn hfa
    have han : a < n := by omega
    have h1 : hv m key ≤ m.keys.getD a 0 := by
      simpa [hfdef] using hfa
    have h2 : m.keys.getD a 0 ≤ m.keys.getD b 0 := by
      rw [List.getD_eq_getElem _ _ han, List.getD_eq_getElem _ _ hbn]
      exact hs.get_mono (show (⟨a, han⟩ : Fin m.keys.length) ≤ ⟨b, hbn⟩ from hab)
    simp only [hfdef, decide_eq_true_eq]
    omega
  obtain ⟨hs1, hs2, hs3, hs4⟩ := searchGo_spec f n 0 n (Nat.zero_le _) (by omega) hmono
  have hloop : searchLoop f 0 n = searchGo f n 0 n := by
    simp [searchLoop]
  have hnpos : 0 < n := by
    simpa [hn, List.length_pos] using hk
  have hempty : IsEmpty m = false := by
    simp [IsEmpty, List.length_eq_zero, hr]
  constructor
  · rintro ⟨q, hqmem, hq⟩
    -- the search cannot return n: q's index satisfies f
    obtain ⟨⟨iq, hiq⟩, rfl⟩ := List.get_of_mem hqmem
    have hfq : f iq = true := by
      simp only [hfdef, decide_eq_true_eq]
      rw [List.getD_eq_getElem _ _ (show iq < n from hiq)]
      exact hq
    have hidxn : searchGo f n 0 n < n := by
      rcases Nat.lt_or_ge (searchGo f n 0 n) n with h | h
      · exact h
      · exact absurd hfq (by simp [hs3 iq (Nat.zero_le _) (by omega)])
    set idx := searchGo f n 0 n with hidx
    have hposmem : m.keys.getD idx 0 ∈ m.keys := by
      rw [List.getD_eq_getElem _ _ hidxn]
      exact List.getElem_mem _
    refine ⟨m.keys.getD idx 0, hposmem, ?_, ?_, ?_⟩
    · have := hs4 hidxn
      simpa [hfdef] using this
    · intro p hpmem hple
      obtain ⟨⟨ip, hip⟩, rfl⟩ := List.get_of_mem hpmem
      have hfp : f ip = true := by
        simp only [hfdef, decide_eq_true_eq]
        rw [List.getD_eq_getElem _ _ (show ip < n from hip)]
        exact hple
      have hge : idx ≤ ip := by
        by_contra hc
        exact absurd hfp (by simp [hs3 ip (Nat.zero_le _) (by omega)])
      rw [List.getD_eq_getElem _ _ hidxn]
      exact hs.get_mono (show (⟨idx, hidxn⟩ : Fin m.keys.length) ≤ ⟨ip, hip⟩ from hge)
    · simp only [Get, hempty, Bool.false_eq_true, if_false, hk, if_neg hk]
      have : lookupIdx m key = idx := by
        simp only [lookupIdx, ← hn, ← hfdef, hloop, ← hidx]
        rw [if_neg (by omega)]
      rw [this]
  · intro hall
    have hidxn : searchGo f n 0 n = n := by
      rcases Nat.lt_or_ge (searchGo f n 0 n) n with h | h
      · have hf := hs4 h
        simp only [hfdef, decide_eq_true_eq] at hf
        rw [List.getD_eq_getElem _ _ h] at hf
        exact absurd hf (by
          have := hall _ (List.getElem_mem (l := m.keys) (h := h))
          omega)
      · omega
    have hlk : lookupIdx m key = 0 := by
      simp only [lookupIdx, ← hn, ← hfdef, hloop]
      rw [if_pos hidxn]
    constructor
    · simp only [Get, hempty, Bool.false_eq_true, if_false, if_neg hk, hlk]
      have h1 : m.keys.getD 0 0 = m.keys.headD 0 := by
        rw [List.getD_eq_getElem _ _ hnpos, headD_eq_get m.keys hnpos, List.get_eq_getElem]
      rw [h1]
    · intro p hpmem
      obtain ⟨⟨ip, hip⟩, rfl⟩ := List.get_of_mem hpmem
      rw [headD_eq_get m.keys hnpos]
      exact hs.get_mono (show (⟨0, hnpos⟩ : Fin m.keys.length) ≤ ⟨ip, hip⟩ from Nat.zero_le _)



/-- C2 witness: on the concrete scenario ring, `Get("11")` is the owner
of the least position `≥ 11` and `Get("27")` wraps to the owner of the
minimum position. -/
theorem get_owner_of_smallest_geq_position_witness :
    (∃ pos ∈ scenario1.keys, hv scenario1 "11" ≤ pos
      ∧ (∀ p ∈ scenario1.keys, hv scenario1 "11" ≤ p → pos ≤ p)
      ∧ Get scenario1 "11" = some (ownerOf scenario1 pos))
    ∧ Get scenario1 "27" = some (ownerOf scenario1 (scenario1.keys.headD 0))
    ∧ ∀ p ∈ scenario1.keys, scenario1.keys.headD 0 ≤ p :=
  ⟨(get_owner_of_smallest_geq_position scenario1 "11" (by decide) (by decide) (by decide)).1
      (by decide),
   ((get_owner_of_smallest_geq_position scenario1 "27" (by decide) (by decide) (by decide)).2
      (by decide)).1,
   ((get_owner_of_smallest_geq_position scenario1 "27" (by decide) (by decide) (by decide)).2
      (by decide)).2⟩


/-- `searchGo` stays within its interval. -/
theorem searchGo_bounds (f : Nat → Bool) :
    ∀ (fuel i j : Nat), i ≤ j → i ≤ searchGo f fuel i j ∧ searchGo f fuel i j ≤ j := by
  intro fuel
  induction fuel with
  | zero => intro i j hij; simp [searchGo]; omega
  | succ fuel ih =>
    intro i j hij
    simp only [searchGo]
    by_cases hlt : i < j
    · rw [if_pos hlt]
      cases hf : f ((i + j) / 2) with
      | false =>
        simp only [Bool.false_eq_true, if_false]
        have := ih ((i + j) / 2 + 1) j (by omega)
        omega
      | true =>
        simp only [if_true]
        have := ih i ((i + j) / 2) (by omega)
        omega
    · rw [if_neg hlt]; omega

/-- On a non-empty ring the lookup index is always in range (after the
wraparound on line 304-306). -/
theorem lookupIdx_lt (m : Map) (key : String) (hk : m.keys ≠ []) :
    lookupIdx m key < m.keys.length := by
  have hn : 0 < m.keys.length := List.length_pos.mpr hk
  simp only [lookupIdx, searchLoop]
  have hb := searchGo_bounds (fun i => decide (hv m key ≤ m.keys.getD i 0))
    (m.keys.length - 0) 0 m.keys.length (Nat.zero_le _)
  split
  · exact hn
  · omega

/-- The `Get2` scan only stops at a position whose owner differs from
the primary. -/
theorem scan2_ne_of_some (m : Map) (first : String) :
    ∀ (fuel i j : Nat), scan2 m first fuel i = some j →
      ownerOf m (m.keys.getD j 0) ≠ first := by
  intro fuel
  induction fuel with
  | zero => intro i j h; simp [scan2] at h
  | succ fuel ih =>
    intro i j h
    simp only [scan2] at h
    split at h
    · exact ih _ _ h
    · next hne =>
      cases h
      exact hne

/-- The `Get2` scan terminates when some position within `fuel` cyclic
steps is owned by another node. -/
theorem scan2_finds (m : Map) (first : String) :
    ∀ (fuel i : Nat), i < m.keys.length →
      (∃ t, t < fuel ∧ ownerOf m (m.keys.getD ((i + t) % m.keys.length) 0) ≠ first) →
      ∃ j, scan2 m first fuel i = some j := by
  intro fuel
  induction fuel with
  | zero =>
    rintro i _ ⟨t, ht, _⟩
    omega
  | succ fuel ih =>
    rintro i hi ⟨t, ht, howner⟩
    simp only [scan2]
    split
    · next heq =>
      have hn : 0 < m.keys.length := by omega
      have ht0 : t ≠ 0 := by
        intro h0
        rw [h0] at howner
        simp only [Nat.add_zero, Nat.mod_eq_of_lt hi] at howner
        exact howner heq
      obtain ⟨t', rfl⟩ : ∃ t', t = t' + 1 := ⟨t - 1, by omega⟩
      set i' := if i + 1 = m.keys.length then 0 else i + 1 with hi'
      have hilt : i' < m.keys.length := by
        rw [hi']; split <;> omega
      have hmod : i' = (i + 1) % m.keys.length := by
        rw [hi']
        split
        · next h => rw [h, Nat.mod_self]
        · next h => rw [Nat.mod_eq_of_lt (by omega)]
      refine ih i' hilt ⟨t', by omega, ?_⟩
      rw [hmod, Nat.mod_add_mod]
      have : i + 1 + t' = i + (t' + 1) := by omega
      rw [this]
      exact howner
    · exact ⟨i, rfl⟩

/-- A hash on which all virtual keys collide. -/
def hConst : String → Nat := fun _ => 5

/-- Two nodes, weight 1 each, all positions at hash 5; every virtual key
collides, so both ring positions resolve to the same owner. -/
def mC3 : Map := (Add dZero (New 1 hConst) ["a", "b"]).1

/-- Single-node ring for the degenerate branch of `Get2`. -/
def mOne : Map := (Add dZero (New 3 numHash) ["6"]).1

/-- C3 counterexample: on `mC3` two distinct nodes are registered, yet
`Get2` does not return a pair of distinct owners — it does not return at
all (the scan of lines 320-325 never finds a position owned by another
node and Go loops forever, modelled as `none`). -/
theorem get2_diverges_on_total_collision :
    1 < mC3.replicas.length ∧ Get2 mC3 "x" = none := by
  exact ⟨by decide, by decide⟩

/-- C3 (amended): when at least 2 distinct nodes are registered *and*
some ring position is owned by a node other than the primary (true in
particular whenever distinct virtual keys receive distinct hashes),
`Get2` returns a primary and a secondary that are distinct nodes, the
secondary being found by the forward wrap-around scan; with fewer than 2
registered nodes the secondary is the "no owner" sentinel. -/
theorem get2_secondary_distinct (m : Map) (key : String)
    (hk : m.keys ≠ []) (hr : m.replicas ≠ []) :
    (1 < m.replicas.length →
      (∃ j, j < m.keys.length
        ∧ ownerOf m (m.keys.getD j 0) ≠ ownerOf m (m.keys.getD (lookupIdx m key) 0)) →
      ∃ s, Get2 m key = some (ownerOf m (m.keys.getD (lookupIdx m key) 0), s)
        ∧ s ≠ ownerOf m (m.keys.getD (lookupIdx m key) 0))
    ∧ (m.replicas.length = 1 →
      Get2 m key = some (ownerOf m (m.keys.getD (lookupIdx m key) 0), "")) := by
  have hempty : IsEmpty m = false := by
    simp [IsEmpty, List.length_eq_zero, hr]
  have hn : 0 < m.keys.length := List.length_pos.mpr hk
  have hidx : lookupIdx m key < m.keys.length := lookupIdx_lt m key hk
  constructor
  · rintro h2 ⟨j, hj, hjne⟩
    have hfind : ∃ j', scan2 m (ownerOf m (m.keys.getD (lookupIdx m key) 0))
        m.keys.length (lookupIdx m key) = some j' := by
      apply scan2_finds m _ m.keys.length (lookupIdx m key) hidx
      refine ⟨(j + m.keys.length - lookupIdx m key) % m.keys.length, Nat.mod_lt _ hn, ?_⟩
      have hkey : (lookupIdx m key + (j + m.keys.length - lookupIdx m key) % m.keys.length)
          % m.keys.length = j := by
        rcases Nat.lt_or_ge j (lookupIdx m key) with hji | hji
        · rw [Nat.mod_eq_of_lt
            (show j + m.keys.length - lookupIdx m key < m.keys.length by omega)]
          have h2 : lookupIdx m key + (j + m.keys.length - lookupIdx m key)
              = j + m.keys.length := by omega
          rw [h2, Nat.add_mod_right, Nat.mod_eq_of_lt hj]
        · have h2 : j + m.keys.length - lookupIdx m key
              = (j - lookupIdx m key) + m.keys.length := by omega
          rw [h2, Nat.add_mod_right, Nat.mod_eq_of_lt
            (show j - lookupIdx m key < m.keys.length by omega)]
          have h3 : lookupIdx m key + (j - lookupIdx m key) = j := by omega
          rw [h3, Nat.mod_eq_of_lt hj]
      rw [hkey]
      exact hjne
    obtain ⟨j', hj'⟩ := hfind
    refine ⟨ownerOf m (m.keys.getD j' 0), ?_, scan2_ne_of_some m _ _ _ _ hj'⟩
    simp only [Get2, hempty, Bool.false_eq_true, if_false, if_neg hk, if_pos h2, hj']
  · intro h1
    have hnot : ¬ (1 < m.replicas.length) := by omega
    simp only [Get2, hempty, Bool.false_eq_true, if_false, if_neg hk, if_neg hnot]

/-- C3 witness: on the concrete scenario ring, `Get2("23")` returns a
distinct secondary, and on a single-node ring the secondary is the
sentinel. -/
theorem get2_secondary_distinct_witness :
    (∃ s, Get2 scenario1 "23"
        = some (ownerOf scenario1 (scenario1.keys.getD (lookupIdx scenario1 "23") 0), s)
      ∧ s ≠ ownerOf scenario1 (scenario1.keys.getD (lookupIdx scenario1 "23") 0))
    ∧ Get2 mOne "9" = some (ownerOf mOne (mOne.keys.getD (lookupIdx mOne "9") 0), "") :=
  ⟨(get2_secondary_distinct scenario1 "23" (by decide) (by decide)).1 (by decide) (by decide),
   (get2_secondary_distinct mOne "9" (by decide) (by decide)).2 (by decide)⟩



/-- The identifiers of the currently registered nodes. -/
def nodeIds (m : Map) : List String := m.replicas.map (·.1)

/-- Ring invariant: every live ring position has an owner entry in the
hash→owner table, and that owner is a currently registered node (stale
entries for removed nodes are always shadowed by the most recent ring
rebuild). -/
def GoodMap (m : Map) : Prop :=
  ∀ h ∈ m.keys, ∃ k, alookup m.hashMap h = some k ∧ k ∈ nodeIds m

/-- Lookup after a prepended entry. -/
theorem alookup_cons {α β : Type} [BEq α] (x : α × β) (l : List (α × β)) (k : α) :
    alookup (x :: l) k = if x.1 == k then some x.2 else alookup l k := by
  simp only [alookup, List.find?]
  split <;> simp_all

/-- Looking up after `calc` prepends one node's (hash, owner) pairs:
hashes in `used` now resolve to that node, others are untouched. -/
theorem prepends_lookup (key : String) :
    ∀ (used : List Nat) (hm : List (Nat × String)) (h : Nat),
      alookup (used.foldl (fun acc x => (x, key) :: acc) hm) h
        = if h ∈ used then some key else alookup hm h := by
  intro used
  induction used with
  | nil => intro hm h; simp
  | cons u us ih =>
    intro hm h
    simp only [List.foldl_cons, ih ((u, key) :: hm) h, alookup_cons]
    by_cases hus : h ∈ us
    · simp [hus, List.mem_cons]
    · by_cases hu : h = u
      · simp [hus, hu]
      · simp [hus, hu, List.mem_cons, beq_iff_eq]
        intro hc
        exact absurd hc.symm hu

/-- A map write adds at most the written key to the domain. -/
theorem mem_aset_fst {β : Type} (l : List (String × β)) (k : String) (v : β) :
    ∀ x ∈ (aset l k v).map (·.1), x ∈ l.map (·.1) ∨ x = k := by
  intro x hx
  simp only [aset] at hx
  split at hx
  · simp only [List.map_map, List.mem_map] at hx
    obtain ⟨p, hp, hpx⟩ := hx
    simp only [Function.comp] at hpx
    by_cases hpk : p.1 == k
    · rw [if_pos hpk] at hpx
      right
      rw [← hpx]
    · rw [if_neg hpk] at hpx
      left
      rw [← hpx]
      exact List.mem_map_of_mem _ hp
  · simp only [List.map_append, List.mem_append, List.map_cons, List.map_nil,
      List.mem_singleton] at hx
    rcases hx with h | h
    · exact Or.inl h
    · exact Or.inr h



/-- Fold invariant of `calc`: every collected ring key resolves to an
owner among the processed weight map's nodes. -/
theorem calcFold_owner (m : Map) (S : List String) :
    ∀ (reps : List (String × Int))
      (acc : List Nat × List (Nat × String) × List (String × List Nat)),
      (∀ h ∈ acc.1, ∃ k, alookup acc.2.1 h = some k ∧ k ∈ S) →
      (∀ p ∈ reps, p.1 ∈ S) →
      ∀ h ∈ (reps.foldl (calcNode m) acc).1,
        ∃ k, alookup (reps.foldl (calcNode m) acc).2.1 h = some k ∧ k ∈ S := by
  intro reps
  induction reps with
  | nil => intro acc hacc _; exact hacc
  | cons kr rest ih =>
    intro acc hacc hdom
    simp only [List.foldl_cons]
    apply ih
    · intro h hmem
      simp only [calcNode] at hmem ⊢
      rw [prepends_lookup]
      by_cases hused : h ∈ ((growCache (fun i => hv m (toString i ++ kr.1))
          ((alookup acc.2.2 kr.1).getD []) kr.2.toNat).take kr.2.toNat)
      · rw [if_pos hused]
        exact ⟨kr.1, rfl, hdom kr (List.mem_cons_self _ _)⟩
      · rw [if_neg hused]
        rcases List.mem_append.mp hmem with hp | hp
        · exact hacc h hp
        · exact absurd hp hused
    · intro p hp
      exact hdom p (List.mem_cons_of_mem _ hp)

/-- After `calc`, every live ring position resolves to a node of the
weight map it was built from. -/
theorem calcRing_owner (m : Map) (reps : List (String × Int)) :
    ∀ h ∈ (calcRing m reps).keys,
      ∃ k, alookup (calcRing m reps).hashMap h = some k ∧ k ∈ reps.map (·.1) := by
  intro h hmem
  simp only [calcRing, List.mem_insertionSort] at hmem
  exact calcFold_owner m (reps.map (·.1)) reps ([], m.hashMap, m.hashs)
    (by intro h hm; exact absurd hm (List.not_mem_nil _))
    (fun p hp => List.mem_map_of_mem _ hp) h hmem

/-- `calc` does not touch the registered membership. -/
theorem calcRing_replicas (m : Map) (reps : List (String × Int)) :
    (calcRing m reps).replicas = m.replicas := rfl

/-- On a good ring, the owner of a live position is registered. -/
theorem ownerOf_mem (m : Map) (hg : GoodMap m) (h : Nat) (hm : h ∈ m.keys) :
    ownerOf m h ∈ nodeIds m := by
  obtain ⟨k, hk, hkmem⟩ := hg h hm
  simp only [ownerOf, hk, Option.getD_some]
  exact hkmem

/-- Every key of the arc statistics is a registered node (owners of
live positions). -/
theorem computeStat_fst (m : Map) (hg : GoodMap m) :
    ∀ x ∈ (computeStat m).map (·.1), x ∈ nodeIds m := by
  have hfold : ∀ (l : List (Nat × Nat)) (st : List (String × Int)),
      (∀ y ∈ st.map (·.1), y ∈ nodeIds m) →
      (∀ pr ∈ l, pr.2 ∈ m.keys) →
      ∀ y ∈ (l.foldl (fun st pr => aadd st (ownerOf m pr.2) ((pr.2 : Int) - (pr.1 : Int)))
          st).map (·.1), y ∈ nodeIds m := by
    intro l
    induction l with
    | nil => intro st hst _; exact hst
    | cons pr rest ih =>
      intro st hst hl
      simp only [List.foldl_cons]
      apply ih
      · intro y hy
        rcases mem_aset_fst st (ownerOf m pr.2) _ y hy with h | h
        · exact hst y h
        · rw [h]
          exact ownerOf_mem m hg pr.2 (hl pr (List.mem_cons_self _ _))
      · intro q hq
        exact hl q (List.mem_cons_of_mem _ hq)
  intro x hx
  simp only [computeStat] at hx
  cases hke : m.keys with
  | nil => rw [hke] at hx; simp at hx
  | cons k0 ktl =>
    rw [hke] at hx
    refine hfold _ _ ?_ ?_ x hx
    · intro y hy
      simp only [List.map_cons, List.map_nil, List.mem_singleton] at hy
      rw [hy]
      exact ownerOf_mem m hg k0 (by rw [hke]; exact List.mem_cons_self _ _)
    · intro pr hpr
      obtain ⟨p1, p2⟩ := pr
      have h2 := (List.of_mem_zip hpr).2
      simp only [List.tail_cons] at h2
      rw [hke]
      exact List.mem_cons_of_mem _ h2



/-- Fold invariant of a pass: working-weight keys stay within `S` when
the incoming weights and the statistics keys are within `S`. -/
theorem applyPass_fst (dF : Int → Int → Int → Int → Int) (m : Map) (S : List String) :
    ∀ (stat : List (String × Int)) (acc : List (String × Int) × Bool) (W : Int),
      (∀ x ∈ acc.1.map (·.1), x ∈ S) →
      (∀ kv ∈ stat, kv.1 ∈ S) →
      ∀ x ∈ ((stat.foldl
        (fun acc kv =>
          let rep := (alookup acc.1 kv.1).getD 0
          let delta := dF kv.2 rep ((alookup m.replicas kv.1).getD 0) W
          let u := applyOne delta rep
          (if u.2 then aset acc.1 kv.1 u.1 else acc.1, acc.2 || u.2)) acc).1).map (·.1),
        x ∈ S := by
  intro stat
  induction stat with
  | nil => intro acc W hacc _; exact hacc
  | cons kv rest ih =>
    intro acc W hacc hstat
    simp only [List.foldl_cons]
    apply ih
    · intro x hx
      dsimp only at hx
      split at hx
      · rcases mem_aset_fst acc.1 kv.1 _ x hx with h | h
        · exact hacc x h
        · rw [h]
          exact hstat kv (List.mem_cons_self _ _)
      · exact hacc x hx
    · intro q hq
      exact hstat q (List.mem_cons_of_mem _ hq)

/-- The working weights after a pass mention only nodes from the
incoming weights or the statistics. -/
theorem pass_result_fst (dF : Int → Int → Int → Int → Int) (m : Map)
    (stat reps : List (String × Int)) (W : Int) (S : List String)
    (hreps : ∀ x ∈ reps.map (·.1), x ∈ S)
    (hstat : ∀ kv ∈ stat, kv.1 ∈ S) :
    ∀ x ∈ ((applyPass dF m stat reps W).1).map (·.1), x ∈ S :=
  applyPass_fst dF m S stat (reps, false) W hreps hstat

/-- The adjuster loop preserves the ring invariant. -/
theorem adjustLoop_good (dF : Int → Int → Int → Int → Int) (W : Int) :
    ∀ (fuel : Nat) (m : Map) (reps : List (String × Int)),
      GoodMap m → (∀ x ∈ reps.map (·.1), x ∈ nodeIds m) →
      GoodMap (adjustLoop dF W fuel m reps) := by
  intro fuel
  induction fuel with
  | zero => intro m reps hg _; exact hg
  | succ fuel ih =>
    intro m reps hg hreps
    simp only [adjustLoop]
    split
    · have hstat : ∀ kv ∈ computeStat m, kv.1 ∈ nodeIds m := by
        intro kv hkv
        exact computeStat_fst m hg kv.1 (List.mem_map_of_mem _ hkv)
      have hfst : ∀ x ∈ ((applyPass dF m (computeStat m) reps W).1).map (·.1),
          x ∈ nodeIds m :=
        pass_result_fst dF m (computeStat m) reps W (nodeIds m) hreps hstat
      apply ih
      · intro h hm
        obtain ⟨k, hk, hkmem⟩ :=
          calcRing_owner m (applyPass dF m (computeStat m) reps W).1 h hm
        exact ⟨k, hk, hfst k hkmem⟩
      · exact hfst
    · exact hg

/-- `adjust` preserves the ring invariant. -/
theorem adjust_good (dF : Int → Int → Int → Int → Int) (m : Map) (tries : Nat)
    (hg : GoodMap m) : GoodMap (adjust dF m tries) := by
  simp only [adjust]
  split
  · exact hg
  · have hg1 : GoodMap (calcRing m m.replicas) := by
      intro h hm
      obtain ⟨k, hk, hkmem⟩ := calcRing_owner m m.replicas h hm
      exact ⟨k, hk, hkmem⟩
    split
    · exact hg1
    · exact adjustLoop_good dF _ tries _ _ hg1 (fun x hx => hx)

/-- A dirty ring (no keys) satisfies the invariant vacuously. -/
theorem goodMap_of_keys_nil (m : Map) (h : m.keys = []) : GoodMap m := by
  intro x hx
  rw [h] at hx
  exact absurd hx (List.not_mem_nil _)

/-- `AddWithWeight` preserves the ring invariant. -/
theorem addWithWeight_good (dF : Int → Int → Int → Int → Int) (m : Map)
    (key : String) (r : Int) (hg : GoodMap m) :
    GoodMap (AddWithWeight dF m key r).1 := by
  simp only [AddWithWeight]
  split
  · exact hg
  · split
    · exact adjust_good dF _ 5 (goodMap_of_keys_nil _ rfl)
    · exact hg

/-- `Add`'s loop preserves the ring invariant. -/
theorem add_good (dF : Int → Int → Int → Int → Int) :
    ∀ (ks : List String) (acc : Map × Option String), GoodMap acc.1 →
      GoodMap (ks.foldl
        (fun acc k =>
          match acc.2 with
          | none => AddWithWeight dF acc.1 k acc.1.replica
          | some e => (acc.1, some e)) acc).1 := by
  intro ks
  induction ks with
  | nil => intro acc hg; exact hg
  | cons k rest ih =>
    intro acc hg
    simp only [List.foldl_cons]
    apply ih
    cases acc.2 with
    | none => exact addWithWeight_good dF acc.1 k acc.1.replica hg
    | some e => exact hg

/-- Every public mutation preserves the ring invariant. -/
theorem runOp_good (dF : Int → Int → Int → Int → Int) (m : Map) (op : Op)
    (hg : GoodMap m) : GoodMap (runOp dF m op) := by
  cases op with
  | add ks => exact add_good dF ks (m, none) hg
  | addW k r => exact addWithWeight_good dF m k r hg
  | rem k =>
    simp only [runOp, Remove]
    split
    · exact adjust_good dF _ 5 (goodMap_of_keys_nil _ rfl)
    · exact hg

/-- Every reachable ring state satisfies the invariant. -/
theorem runOps_good (dF : Int → Int → Int → Int → Int) (r : Int)
    (hfn : String → Nat) (ops : List Op) : GoodMap (runOps dF r hfn ops) := by
  have : ∀ (l : List Op) (m : Map), GoodMap m → GoodMap (l.foldl (runOp dF) m) := by
    intro l
    induction l with
    | nil => intro m hg; exact hg
    | cons op rest ih =>
      intro m hg
      exact ih _ (runOp_good dF m op hg)
  exact this ops (New r hfn) (goodMap_of_keys_nil _ rfl)



/-- C10 (amended): on every reachable state with at least one registered
node and a non-empty position list, `Get` returns the identifier of a
currently registered node — never the id of a removed node (despite the
stale entries the hash→owner table retains) and never the "no owner"
sentinel (as long as `""` is not itself a registered node id).  The
non-empty-ring proviso is essential and does not follow from nodes being
registered: the balancer can empty the ring of a registered membership
(`get_fails_after_balancer_collapse`). -/
theorem get_returns_registered_node (dF : Int → Int → Int → Int → Int)
    (r : Int) (hfn : String → Nat) (ops : List Op) (key : String)
    (hrep : (runOps dF r hfn ops).replicas ≠ [])
    (hks : (runOps dF r hfn ops).keys ≠ []) :
    ∃ k, Get (runOps dF r hfn ops) key = some k
      ∧ k ∈ nodeIds (runOps dF r hfn ops)
      ∧ ("" ∉ nodeIds (runOps dF r hfn ops) → k ≠ "") := by
  set m := runOps dF r hfn ops with hm
  have hg : GoodMap m := runOps_good dF r hfn ops
  have hempty : IsEmpty m = false := by
    simp [IsEmpty, List.length_eq_zero, hrep]
  have hidx : lookupIdx m key < m.keys.length := lookupIdx_lt m key hks
  have hmem : m.keys.getD (lookupIdx m key) 0 ∈ m.keys := by
    rw [List.getD_eq_getElem _ _ hidx]
    exact List.getElem_mem _
  refine ⟨ownerOf m (m.keys.getD (lookupIdx m key) 0), ?_, ?_, ?_⟩
  · simp only [Get, hempty, Bool.false_eq_true, if_false, if_neg hks]
  · exact ownerOf_mem m hg _ hmem
  · intro hnotin heq
    exact hnotin (heq ▸ ownerOf_mem m hg _ hmem)

/-- Add two nodes, then remove one: the hash→owner table keeps stale
entries for node "6". -/
def opsC10 : List Op := [Op.add ["6", "4"], Op.rem "6"]


/-- C10 witness: after removing node "6", a lookup that previously hit
one of its positions returns the surviving registered node "4". -/
theorem get_returns_registered_node_witness :
    ∃ k, Get (runOps dZero 3 numHash opsC10) "5" = some k
      ∧ k ∈ nodeIds (runOps dZero 3 numHash opsC10)
      ∧ ("" ∉ nodeIds (runOps dZero 3 numHash opsC10) → k ≠ "") :=
  get_returns_registered_node dZero 3 numHash opsC10 "5" (by decide) (by decide)




/-- Two membership maps agree as functions (same stored weight for
every node). -/
def funEq {β : Type} (l₁ l₂ : List (String × β)) : Prop :=
  ∀ k, alookup l₁ k = alookup l₂ k

/-- No duplicate keys in an association list (true of every list that
models a Go map). -/
def nodupFst {β : Type} (l : List (String × β)) : Prop :=
  (l.map (·.1)).Nodup

/-- A Boolean that is not true is false. -/
theorem bool_eq_false {b : Bool} (h : ¬ b = true) : b = false := by
  cases b
  · rfl
  · exact absurd rfl h

/-- The `aset` membership test characterised. -/
theorem find?_isSome_iff {β : Type} (l : List (String × β)) (k : String) :
    (l.find? (fun p => p.1 == k)).isSome = true ↔ ∃ v, (k, v) ∈ l := by
  rw [List.find?_isSome]
  constructor
  · rintro ⟨p, hp, hpk⟩
    obtain ⟨p1, p2⟩ := p
    simp only [beq_iff_eq] at hpk
    exact ⟨p2, by rw [← hpk]; exact hp⟩
  · rintro ⟨v, hv⟩
    exact ⟨(k, v), hv, by simp⟩

/-- After an in-place update, the written key reads the new value. -/
theorem alookup_map_update_self {β : Type} (l : List (String × β)) (k : String) (v : β) :
    (l.find? (fun p => p.1 == k)).isSome = true →
    alookup (l.map (fun p => if p.1 == k then (k, v) else p)) k = some v := by
  induction l with
  | nil => intro h; simp [List.find?] at h
  | cons p rest ih =>
    intro h
    simp only [List.map_cons]
    by_cases hpk : (p.1 == k) = true
    · rw [if_pos hpk, alookup_cons]
      simp
    · rw [if_neg hpk, alookup_cons, if_neg hpk]
      apply ih
      rw [List.find?_cons, bool_eq_false hpk] at h
      exact h

/-- An in-place update leaves other keys unchanged. -/
theorem alookup_map_update_ne {β : Type} (l : List (String × β)) (k : String) (v : β)
    (x : String) (hxk : x ≠ k) :
    alookup (l.map (fun p => if p.1 == k then (k, v) else p)) x = alookup l x := by
  induction l with
  | nil => rfl
  | cons p rest ih =>
    simp only [List.map_cons]
    by_cases hpk : (p.1 == k) = true
    · have hkx : ¬ (((k, v) : String × β).1 == x) = true := by
        simp only [beq_iff_eq]
        exact fun h => hxk h.symm
      have hpx : ¬ (p.1 == x) = true := by
        simp only [beq_iff_eq] at hpk ⊢
        rw [hpk]
        exact fun h => hxk h.symm
      rw [if_pos hpk, alookup_cons, if_neg hkx, alookup_cons, if_neg hpx]
      exact ih
    · rw [if_neg hpk, alookup_cons, alookup_cons]
      by_cases hpx : (p.1 == x) = true
      · rw [if_pos hpx, if_pos hpx]
      · rw [if_neg hpx, if_neg hpx]
        exact ih

/-- Lookup skips a prefix in which the key is absent. -/
theorem alookup_append_right {β : Type} (l₁ l₂ : List (String × β)) (x : String)
    (h : alookup l₁ x = none) : alookup (l₁ ++ l₂) x = alookup l₂ x := by
  induction l₁ with
  | nil => rfl
  | cons p rest ih =>
    rw [List.cons_append, alookup_cons]
    rw [alookup_cons] at h
    by_cases hpx : (p.1 == x) = true
    · rw [if_pos hpx] at h
      exact absurd h (by simp)
    · rw [if_neg hpx] at h
      rw [if_neg hpx]
      exact ih h

/-- A failed find is a `none` lookup. -/
theorem alookup_not_found {β : Type} (l : List (String × β)) (k : String)
    (h : ¬ (l.find? (fun p => p.1 == k)).isSome = true) : alookup l k = none := by
  simp only [alookup]
  cases hf : l.find? (fun p => p.1 == k) with
  | none => rfl
  | some p => exact absurd (by rw [hf]; rfl) h

/-- Lookup ignores a suffix in which the key is absent. -/
theorem alookup_append_miss {β : Type} (l₁ l₂ : List (String × β)) (x : String)
    (h : alookup l₂ x = none) : alookup (l₁ ++ l₂) x = alookup l₁ x := by
  induction l₁ with
  | nil => simpa using h
  | cons p rest ih =>
    rw [List.cons_append, alookup_cons, alookup_cons]
    by_cases hpx : (p.1 == x) = true
    · rw [if_pos hpx, if_pos hpx]
    · rw [if_neg hpx, if_neg hpx]
      exact ih

/-- The map-write/map-read law for the association-list model. -/
theorem alookup_aset {β : Type} (l : List (String × β)) (k : String) (v : β) (x : String) :
    alookup (aset l k v) x = if x = k then some v else alookup l x := by
  simp only [aset]
  split
  · next hfind =>
    by_cases hxk : x = k
    · subst hxk
      rw [if_pos rfl]
      exact alookup_map_update_self l x v hfind
    · rw [if_neg hxk]
      exact alookup_map_update_ne l k v x hxk
  · next hfind =>
    have hnone : alookup l k = none := alookup_not_found l k hfind
    by_cases hxk : x = k
    · subst hxk
      rw [if_pos rfl, alookup_append_right _ _ _ hnone, alookup_cons]
      simp
    · rw [if_neg hxk]
      have h2 : alookup ([(k, v)] : List (String × β)) x = none := by
        rw [alookup_cons]
        have : ¬ (((k, v) : String × β).1 == x) = true := by
          simp only [beq_iff_eq]
          exact fun h => hxk h.symm
        rw [if_neg this]
        rfl
      exact alookup_append_miss l [(k, v)] x h2



/-- Lookup of an absent key. -/
theorem alookup_eq_none_of_not_mem_fst {β : Type} (l : List (String × β)) (k : String)
    (h : k ∉ l.map (·.1)) : alookup l k = none := by
  induction l with
  | nil => rfl
  | cons p rest ih =>
    rw [alookup_cons]
    simp only [List.map_cons, List.mem_cons] at h
    push_neg at h
    rw [if_neg (by simp only [beq_iff_eq]; exact fun he => h.1 he.symm)]
    exact ih h.2

/-- A successful lookup is a member. -/
theorem alookup_some_mem {β : Type} (l : List (String × β)) (k : String) (v : β)
    (h : alookup l k = some v) : (k, v) ∈ l := by
  induction l with
  | nil => simp [alookup] at h
  | cons p rest ih =>
    rw [alookup_cons] at h
    by_cases hpk : (p.1 == k) = true
    · rw [if_pos hpk] at h
      obtain ⟨p1, p2⟩ := p
      simp only [beq_iff_eq] at hpk
      cases h
      subst hpk
      exact List.mem_cons_self _ _
    · rw [if_neg hpk] at h
      exact List.mem_cons_of_mem _ (ih h)

/-- A map with no readable key is empty. -/
theorem eq_nil_of_alookup_none {β : Type} (l : List (String × β))
    (h : ∀ k, alookup l k = none) : l = [] := by
  cases l with
  | nil => rfl
  | cons p rest =>
    have := h p.1
    rw [alookup_cons, if_pos (by simp)] at this
    exact absurd this (by simp)

/-- Removing an entry with a different key does not change a lookup. -/
theorem alookup_middle_ne {β : Type} (a b : List (String × β)) (q : String × β)
    (k : String) (hne : q.1 ≠ k) :
    alookup (a ++ q :: b) k = alookup (a ++ b) k := by
  induction a with
  | nil =>
    rw [List.nil_append, List.nil_append, alookup_cons,
      if_neg (by simp only [beq_iff_eq]; exact hne)]
  | cons p rest ih =>
    rw [List.cons_append, List.cons_append, alookup_cons, alookup_cons]
    by_cases hpk : (p.1 == k) = true
    · rw [if_pos hpk, if_pos hpk]
    · rw [if_neg hpk, if_neg hpk]
      exact ih

/-- Two duplicate-free association lists that agree as functions are
permutations of each other. -/
theorem perm_of_funEq {β : Type} :
    ∀ (l₁ l₂ : List (String × β)), nodupFst l₁ → nodupFst l₂ → funEq l₁ l₂ →
      l₁.Perm l₂ := by
  intro l₁
  induction l₁ with
  | nil =>
    intro l₂ _ _ hf
    have : l₂ = [] := eq_nil_of_alookup_none l₂ (fun k => (hf k).symm)
    rw [this]
  | cons p rest ih =>
    intro l₂ hn₁ hn₂ hf
    have hp2 : alookup l₂ p.1 = some p.2 := by
      rw [← hf p.1, alookup_cons, if_pos (by simp)]
    have hpmem : (p.1, p.2) ∈ l₂ := alookup_some_mem l₂ p.1 p.2 hp2
    obtain ⟨a, b, hab⟩ := List.append_of_mem hpmem
    rw [hab] at hn₂
    have hn₂' : (p.1 :: (a.map (·.1) ++ b.map (·.1))).Nodup := by
      simp only [nodupFst, List.map_append, List.map_cons] at hn₂
      exact List.nodup_middle.mp hn₂
    have hp1notin : p.1 ∉ a.map (·.1) ++ b.map (·.1) := (List.nodup_cons.mp hn₂').1
    have hnab : nodupFst (a ++ b) := by
      rw [nodupFst, List.map_append]
      exact (List.nodup_cons.mp hn₂').2
    rw [nodupFst, List.map_cons] at hn₁
    have hcons := List.nodup_cons.mp hn₁
    have hfeq : funEq rest (a ++ b) := by
      intro k
      by_cases hk : k = p.1
      · subst hk
        rw [alookup_eq_none_of_not_mem_fst rest p.1 hcons.1,
          alookup_eq_none_of_not_mem_fst (a ++ b) p.1 (by
            rw [List.map_append]
            exact hp1notin)]
      · have hchain := hf k
        rw [alookup_cons,
          if_neg (by simp only [beq_iff_eq]; exact fun he => hk he.symm)] at hchain
        rw [hab, alookup_middle_ne a b (p.1, p.2) k (fun he => hk he.symm)] at hchain
        exact hchain
    have hperm : rest.Perm (a ++ b) := ih _ hcons.2 hnab hfeq
    rw [hab]
    exact (hperm.cons p).trans List.perm_middle.symm



/-- A map write preserves freedom from duplicate keys. -/
theorem nodupFst_aset {β : Type} (l : List (String × β)) (k : String) (v : β)
    (h : nodupFst l) : nodupFst (aset l k v) := by
  simp only [aset]
  split
  · have : (l.map (fun p => if p.1 == k then (k, v) else p)).map (·.1) = l.map (·.1) := by
      rw [List.map_map]
      apply List.map_congr_left
      intro p _
      simp only [Function.comp]
      split
      · next hpk => simp only [beq_iff_eq] at hpk; exact hpk.symm
      · rfl
    rw [nodupFst, this]
    exact h
  · next hfind =>
    have hknot : k ∉ l.map (·.1) := by
      intro hmem
      obtain ⟨p, hp, hpk⟩ := List.mem_map.mp hmem
      apply hfind
      rw [find?_isSome_iff]
      obtain ⟨p1, p2⟩ := p
      have hp1 : p1 = k := hpk
      subst hp1
      exact ⟨p2, hp⟩
    rw [nodupFst, List.map_append]
    rw [List.nodup_append]
    refine ⟨h, by simp, ?_⟩
    intro x hx hx2
    simp only [List.map_cons, List.map_nil, List.mem_singleton] at hx2
    rw [hx2] at hx
    exact hknot hx

/-- The canonical virtual positions of node `k` at weight `r`: indices
`0 .. r-1` hashed through the instance hash. -/
def usedOf (m : Map) (k : String) (r : Int) : List Nat :=
  (List.range r.toNat).map (fun i => hv m (toString i ++ k))

/-- Cache well-formedness: every cached value is the hash of its
virtual key.  True of every reachable state: entries are only ever
computed as `hash(itoa(i) + key)` at index `i`. -/
def cachesOk (m : Map) (hss : List (String × List Nat)) : Prop :=
  ∀ k hs, alookup hss k = some hs → ∀ i, i < hs.length →
    hs.getD i 0 = hv m (toString i ++ k)

/-- With a valid cache, the positions contributed by a node are exactly
the canonical hashes of indices `0 .. r-1`, regardless of how long the
cache already was. -/
theorem growCache_take (m : Map) (k : String) (hs : List Nat) (r : Nat)
    (hok : ∀ i, i < hs.length → hs.getD i 0 = hv m (toString i ++ k)) :
    (growCache (fun i => hv m (toString i ++ k)) hs r).take r
      = (List.range r).map (fun i => hv m (toString i ++ k)) := by
  set f : Nat → Nat := fun i => hv m (toString i ++ k) with hf
  have hlg : (growCache f hs r).length = max hs.length r := by
    simp only [growCache, List.length_append, List.length_map, List.length_drop,
      List.length_range]
    omega
  apply List.ext_getElem
  · simp only [List.length_take, hlg, List.length_map, List.length_range]
    omega
  · intro n h₁ h₂
    simp only [List.length_take, hlg] at h₁
    have hn : n < r := by omega
    rw [List.getElem_take, List.getElem_map, List.getElem_range]
    by_cases hnl : n < hs.length
    · simp only [growCache]
      rw [List.getElem_append_left hnl]
      have := hok n hnl
      rw [List.getD_eq_getElem _ _ hnl] at this
      exact this
    · simp only [growCache]
      rw [List.getElem_append_right (by omega)]
      rw [List.getElem_map, List.getElem_drop, List.getElem_range]
      congr 1
      omega

/-- Extending a valid cache keeps it valid. -/
theorem growCache_ok (m : Map) (k : String) (hs : List Nat) (r : Nat)
    (hok : ∀ i, i < hs.length → hs.getD i 0 = hv m (toString i ++ k)) :
    ∀ i, i < (growCache (fun i => hv m (toString i ++ k)) hs r).length →
      (growCache (fun i => hv m (toString i ++ k)) hs r).getD i 0
        = hv m (toString i ++ k) := by
  set f : Nat → Nat := fun i => hv m (toString i ++ k) with hf
  intro i hi
  rw [List.getD_eq_getElem _ _ hi]
  by_cases hil : i < hs.length
  · simp only [growCache]
    rw [List.getElem_append_left hil]
    have := hok i hil
    rw [List.getD_eq_getElem _ _ hil] at this
    exact this
  · have hlen : i < (growCache f hs r).length := hi
    simp only [growCache, List.length_append, List.length_map, List.length_drop,
      List.length_range] at hlen
    simp only [growCache]
    rw [List.getElem_append_right (by omega)]
    rw [List.getElem_map, List.getElem_drop, List.getElem_range]
    congr 1
    omega

/-- The cache only ever grows, to at least the requested weight. -/
theorem growCache_length (f : Nat → Nat) (hs : List Nat) (r : Nat) :
    (growCache f hs r).length = max hs.length r := by
  simp only [growCache, List.length_append, List.length_map, List.length_drop,
    List.length_range]
  omega



/-- One `calc` step contributes the node's canonical positions. -/
theorem calcNode_used (m : Map) (acc : List Nat × List (Nat × String) × List (String × List Nat))
    (kr : String × Int) (hok : cachesOk m acc.2.2) :
    (growCache (fun i => hv m (toString i ++ kr.1))
        ((alookup acc.2.2 kr.1).getD []) kr.2.toNat).take kr.2.toNat
      = usedOf m kr.1 kr.2 := by
  apply growCache_take
  cases hl : alookup acc.2.2 kr.1 with
  | none => intro i hi; simp at hi
  | some hs =>
    intro i hi
    simp only [Option.getD_some] at hi ⊢
    exact hok kr.1 hs hl i hi

/-- One `calc` step preserves cache validity. -/
theorem calcNode_cachesOk (m : Map) (acc : List Nat × List (Nat × String) × List (String × List Nat))
    (kr : String × Int) (hok : cachesOk m acc.2.2) :
    cachesOk m (calcNode m acc kr).2.2 := by
  intro k hs hlk i hi
  simp only [calcNode] at hlk
  rw [alookup_aset] at hlk
  by_cases hkk : k = kr.1
  · subst hkk
    rw [if_pos rfl] at hlk
    cases hlk
    apply growCache_ok
    · cases hl : alookup acc.2.2 kr.1 with
      | none => intro j hj; simp at hj
      | some hs₀ =>
        intro j hj
        simp only [Option.getD_some] at hj ⊢
        exact hok kr.1 hs₀ hl j hj
    · exact hi
  · rw [if_neg hkk] at hlk
    exact hok k hs hlk i hi

/-- The ring keys collected by `calc`'s loop are the concatenation of
every node's canonical positions. -/
theorem calcFold_keys (m : Map) :
    ∀ (reps : List (String × Int)) (acc : List Nat × List (Nat × String) × List (String × List Nat)),
      cachesOk m acc.2.2 →
      (reps.foldl (calcNode m) acc).1
        = acc.1 ++ (reps.map (fun kr => usedOf m kr.1 kr.2)).flatten := by
  intro reps
  induction reps with
  | nil => intro acc _; simp
  | cons kr rest ih =>
    intro acc hok
    simp only [List.foldl_cons, List.map_cons, List.flatten_cons]
    rw [ih (calcNode m acc kr) (calcNode_cachesOk m acc kr hok)]
    have hused := calcNode_used m acc kr hok
    show (calcNode m acc kr).1 ++ _ = _
    simp only [calcNode]
    rw [hused, List.append_assoc]

/-- `calc`'s loop preserves cache validity. -/
theorem calcFold_cachesOk (m : Map) :
    ∀ (reps : List (String × Int)) (acc : List Nat × List (Nat × String) × List (String × List Nat)),
      cachesOk m acc.2.2 → cachesOk m (reps.foldl (calcNode m) acc).2.2 := by
  intro reps
  induction reps with
  | nil => intro acc h; exact h
  | cons kr rest ih =>
    intro acc hok
    exact ih _ (calcNode_cachesOk m acc kr hok)

/-- The rebuilt ring is the sorted concatenation of canonical
positions. -/
theorem calcRing_keys (m : Map) (reps : List (String × Int)) (hok : cachesOk m m.hashs) :
    (calcRing m reps).keys
      = ((reps.map (fun kr => usedOf m kr.1 kr.2)).flatten).insertionSort (· ≤ ·) := by
  show ((reps.foldl (calcNode m) ([], m.hashMap, m.hashs)).1).insertionSort (· ≤ ·) = _
  rw [calcFold_keys m reps ([], m.hashMap, m.hashs) hok]
  rfl

/-- `calc` preserves cache validity. -/
theorem calcRing_cachesOk (m : Map) (reps : List (String × Int)) (hok : cachesOk m m.hashs) :
    cachesOk m (calcRing m reps).hashs :=
  calcFold_cachesOk m reps ([], m.hashMap, m.hashs) hok

/-- Sorting is invariant under permutation. -/
theorem sort_eq_of_perm (l₁ l₂ : List Nat) (h : l₁.Perm l₂) :
    l₁.insertionSort (· ≤ ·) = l₂.insertionSort (· ≤ ·) := by
  have hs1 : List.Sorted (· ≤ ·) (l₁.insertionSort (· ≤ ·)) :=
    List.sorted_insertionSort _ _
  have hs2 : List.Sorted (· ≤ ·) (l₂.insertionSort (· ≤ ·)) :=
    List.sorted_insertionSort _ _
  exact List.eq_of_perm_of_sorted
    ((List.perm_insertionSort _ _).trans (h.trans (List.perm_insertionSort _ _).symm)) hs1 hs2



/-- Cache lengths never shrink across a `calc`. -/
theorem calcFold_cache_mono (m : Map) :
    ∀ (reps : List (String × Int)) (acc : List Nat × List (Nat × String) × List (String × List Nat))
      (k : String) (hs : List Nat),
      alookup acc.2.2 k = some hs →
      ∃ hs', alookup (reps.foldl (calcNode m) acc).2.2 k = some hs'
        ∧ hs.length ≤ hs'.length := by
  intro reps
  induction reps with
  | nil => intro acc k hs h; exact ⟨hs, h, le_refl _⟩
  | cons kr rest ih =>
    intro acc k hs h
    simp only [List.foldl_cons]
    by_cases hkk : k = kr.1
    · subst hkk
      obtain ⟨hs', hl', hle⟩ := ih (calcNode m acc kr) kr.1
        (growCache (fun i => hv m (toString i ++ kr.1)) ((alookup acc.2.2 kr.1).getD [])
          kr.2.toNat)
        (by show alookup (aset acc.2.2 _ _) _ = _
            rw [alookup_aset, if_pos rfl])
      refine ⟨hs', hl', le_trans ?_ hle⟩
      rw [h, growCache_length]
      simp only [Option.getD_some]
      omega
    · obtain ⟨hs', hl', hle⟩ := ih (calcNode m acc kr) k hs
        (by show alookup (aset acc.2.2 _ _) _ = _
            rw [alookup_aset, if_neg hkk]
            exact h)
      exact ⟨hs', hl', hle⟩

/-- After `calc`, each processed node's cache covers its weight. -/
theorem calcFold_cache_covers (m : Map) :
    ∀ (reps : List (String × Int)) (acc : List Nat × List (Nat × String) × List (String × List Nat))
      (k : String) (r : Int), (k, r) ∈ reps →
      ∃ hs', alookup (reps.foldl (calcNode m) acc).2.2 k = some hs'
        ∧ r.toNat ≤ hs'.length := by
  intro reps
  induction reps with
  | nil => intro acc k r h; exact absurd h (List.not_mem_nil _)
  | cons kr rest ih =>
    intro acc k r h
    simp only [List.foldl_cons]
    rcases List.mem_cons.mp h with heq | hrest
    · cases heq
      obtain ⟨hs', hl', hle⟩ := calcFold_cache_mono m rest (calcNode m acc (k, r)) k
        (growCache (fun i => hv m (toString i ++ k)) ((alookup acc.2.2 k).getD []) r.toNat)
        (by show alookup (aset acc.2.2 _ _) _ = _
            rw [alookup_aset, if_pos rfl])
      refine ⟨hs', hl', le_trans ?_ hle⟩
      rw [growCache_length]
      omega
    · exact ih (calcNode m acc kr) k r hrest

/-- A hash whose owner entry is set and that no later node touches keeps
its owner through the rest of the loop. -/
theorem calcFold_hashMap_stable (m : Map) :
    ∀ (reps : List (String × Int)) (acc : List Nat × List (Nat × String) × List (String × List Nat))
      (h : Nat) (k : String),
      cachesOk m acc.2.2 →
      alookup acc.2.1 h = some k →
      (∀ p ∈ reps, h ∉ usedOf m p.1 p.2) →
      alookup (reps.foldl (calcNode m) acc).2.1 h = some k := by
  intro reps
  induction reps with
  | nil => intro acc h k _ hl _; exact hl
  | cons kr rest ih =>
    intro acc h k hok hl hnot
    simp only [List.foldl_cons]
    apply ih (calcNode m acc kr) h k (calcNode_cachesOk m acc kr hok)
    · show alookup
        (((growCache (fun i => hv m (toString i ++ kr.1)) ((alookup acc.2.2 kr.1).getD [])
            kr.2.toNat).take kr.2.toNat).foldl
          (fun hm hsh => (hsh, kr.1) :: hm) acc.2.1) h = some k
      rw [prepends_lookup, calcNode_used m acc kr hok,
        if_neg (hnot kr (List.mem_cons_self _ _))]
      exact hl
    · intro p hp
      exact hnot p (List.mem_cons_of_mem _ hp)



/-- Membership in the canonical position list. -/
theorem mem_usedOf (m : Map) (k : String) (r : Int) (h : Nat) :
    h ∈ usedOf m k r ↔ ∃ i, i < r.toNat ∧ h = hv m (toString i ++ k) := by
  simp only [usedOf, List.mem_map, List.mem_range]
  constructor
  · rintro ⟨i, hi, rfl⟩
    exact ⟨i, hi, rfl⟩
  · rintro ⟨i, hi, rfl⟩
    exact ⟨i, hi, rfl⟩

/-- Under collision-freedom of the live virtual keys, every position of
a node resolves to that node after `calc` (duplicate-free weight map). -/
theorem calcRing_owner_hit (m : Map) (reps : List (String × Int))
    (hok : cachesOk m m.hashs) (hnd : nodupFst reps)
    (huniq : ∀ k r i k' r' i', (k, r) ∈ reps → (k', r') ∈ reps →
      i < r.toNat → i' < r'.toNat →
      hv m (toString i ++ k) = hv m (toString i' ++ k') → i = i' ∧ k = k')
    (k : String) (r : Int) (hkr : (k, r) ∈ reps) (h : Nat) (hh : h ∈ usedOf m k r) :
    alookup (calcRing m reps).hashMap h = some k := by
  obtain ⟨pre, post, hsplit⟩ := List.append_of_mem hkr
  show alookup ((reps.foldl (calcNode m) ([], m.hashMap, m.hashs)).2.1) h = some k
  rw [hsplit, List.foldl_append, List.foldl_cons]
  set a1 := pre.foldl (calcNode m) ([], m.hashMap, m.hashs) with ha1
  have hok1 : cachesOk m a1.2.2 := calcFold_cachesOk m pre _ hok
  have hmid : alookup (calcNode m a1 (k, r)).2.1 h = some k := by
    show alookup
      (((growCache (fun i => hv m (toString i ++ (k, r).1))
          ((alookup a1.2.2 (k, r).1).getD []) (k, r).2.toNat).take (k, r).2.toNat).foldl
        (fun hm hsh => (hsh, (k, r).1) :: hm) a1.2.1) h = some k
    rw [prepends_lookup, calcNode_used m a1 (k, r) hok1, if_pos hh]
  apply calcFold_hashMap_stable m post (calcNode m a1 (k, r)) h k
    (calcNode_cachesOk m a1 (k, r) hok1) hmid
  intro p hp hmem
  obtain ⟨i, hi, hhi⟩ := (mem_usedOf m k r h).mp hh
  obtain ⟨i', hi', hhi'⟩ := (mem_usedOf m p.1 p.2 h).mp hmem
  have hpr : (p.1, p.2) ∈ reps := by
    rw [hsplit]
    refine List.mem_append.mpr (Or.inr (List.mem_cons_of_mem _ ?_))
    exact hp
  have := huniq k r i p.1 p.2 i' hkr hpr hi hi' (by rw [← hhi, ← hhi'])
  -- so p.1 = k, contradicting nodup of the keys
  rw [hsplit, nodupFst, List.map_append, List.map_cons] at hnd
  have hknotin := (List.nodup_cons.mp (List.nodup_middle.mp hnd)).1
  apply hknotin
  rw [List.mem_append]
  right
  show k ∈ _
  rw [this.2]
  exact List.mem_map_of_mem _ hp



/-- Collision-freedom among the materialized virtual keys of a state:
distinct cached (index, node) pairs have distinct hashes. -/
def InjOnCaches (m : Map) : Prop :=
  ∀ k hs i k' hs' i', alookup m.hashs k = some hs → i < hs.length →
    alookup m.hashs k' = some hs' → i' < hs'.length →
    hv m (toString i ++ k) = hv m (toString i' ++ k') → i = i' ∧ k = k'

/-- Pointwise cache-length domination. -/
def cacheLe (h1 h2 : List (String × List Nat)) : Prop :=
  ∀ k hs, alookup h1 k = some hs → ∃ hs', alookup h2 k = some hs' ∧ hs.length ≤ hs'.length

/-- `cacheLe` is reflexive. -/
theorem cacheLe_refl (h1 : List (String × List Nat)) : cacheLe h1 h1 :=
  fun _ hs h => ⟨hs, h, le_refl _⟩

/-- `cacheLe` is transitive. -/
theorem cacheLe_trans {h1 h2 h3 : List (String × List Nat)}
    (a : cacheLe h1 h2) (b : cacheLe h2 h3) : cacheLe h1 h3 := by
  intro k hs h
  obtain ⟨hs', h', hle⟩ := a k hs h
  obtain ⟨hs'', h'', hle'⟩ := b k hs' h'
  exact ⟨hs'', h'', le_trans hle hle'⟩

/-- `calc` only extends caches. -/
theorem calcRing_cacheLe (m : Map) (reps : List (String × Int)) :
    cacheLe m.hashs (calcRing m reps).hashs := by
  intro k hs h
  exact calcFold_cache_mono m reps ([], m.hashMap, m.hashs) k hs h

/-- After `calc`, every node of the weight map has a cache at least as
long as its weight. -/
theorem calcRing_cache_covers (m : Map) (reps : List (String × Int))
    (k : String) (r : Int) (h : (k, r) ∈ reps) :
    ∃ hs, alookup (calcRing m reps).hashs k = some hs ∧ r.toNat ≤ hs.length :=
  calcFold_cache_covers m reps ([], m.hashMap, m.hashs) k r h

/-- The adjuster loop only extends caches. -/
theorem adjustLoop_cacheLe (dF : Int → Int → Int → Int → Int) (W : Int) :
    ∀ (fuel : Nat) (m : Map) (reps : List (String × Int)),
      cacheLe m.hashs (adjustLoop dF W fuel m reps).hashs := by
  intro fuel
  induction fuel with
  | zero => intro m reps; exact cacheLe_refl _
  | succ fuel ih =>
    intro m reps
    simp only [adjustLoop]
    split
    · exact cacheLe_trans (calcRing_cacheLe m _) (ih _ _)
    · exact cacheLe_refl _

/-- Collision-freedom over a dominating cache gives uniqueness of the
live virtual keys of a weight map. -/
theorem uniq_of_inj (m out : Map) (reps : List (String × Int))
    (hhash : m.hash = out.hash)
    (hcov : ∀ k r, (k, r) ∈ reps →
      ∃ hs, alookup out.hashs k = some hs ∧ r.toNat ≤ hs.length)
    (hinj : InjOnCaches out) :
    ∀ k r i k' r' i', (k, r) ∈ reps → (k', r') ∈ reps → i < r.toNat → i' < r'.toNat →
      hv m (toString i ++ k) = hv m (toString i' ++ k') → i = i' ∧ k = k' := by
  intro k r i k' r' i' hkr hkr' hi hi' heq
  obtain ⟨hs, hls, hlen⟩ := hcov k r hkr
  obtain ⟨hs', hls', hlen'⟩ := hcov k' r' hkr'
  apply hinj k hs i k' hs' i' hls (by omega) hls' (by omega)
  have hvh : hv m = hv out := by
    funext s
    simp only [hv, hhash]
  rw [← hvh]
  exact heq

/-- Canonical positions depend only on the hash function. -/
theorem usedOf_hash_congr (mA mB : Map) (hhash : mA.hash = mB.hash)
    (k : String) (r : Int) : usedOf mA k r = usedOf mB k r := by
  simp only [usedOf, hv, hhash]

/-- Two rings rebuilt from permuted weight maps with the same hash and
valid caches have identical sorted keys. -/
theorem calcRing_keys_eq (mA mB : Map) (repsA repsB : List (String × Int))
    (hhash : mA.hash = mB.hash)
    (hokA : cachesOk mA mA.hashs) (hokB : cachesOk mB mB.hashs)
    (hperm : repsA.Perm repsB) :
    (calcRing mA repsA).keys = (calcRing mB repsB).keys := by
  rw [calcRing_keys mA repsA hokA, calcRing_keys mB repsB hokB]
  apply sort_eq_of_perm
  have hmap : repsB.map (fun kr => usedOf mA kr.1 kr.2)
      = repsB.map (fun kr => usedOf mB kr.1 kr.2) :=
    List.map_congr_left (fun kr _ => usedOf_hash_congr mA mB hhash kr.1 kr.2)
  rw [← hmap]
  exact (hperm.map _).flatten

/-- Every live position comes from some node of the weight map. -/
theorem mem_calcRing_keys (m : Map) (reps : List (String × Int))
    (hok : cachesOk m m.hashs) (h : Nat) (hmem : h ∈ (calcRing m reps).keys) :
    ∃ k r, (k, r) ∈ reps ∧ h ∈ usedOf m k r := by
  rw [calcRing_keys m reps hok, List.mem_insertionSort, List.mem_flatten] at hmem
  obtain ⟨l, hl, hhl⟩ := hmem
  obtain ⟨kr, hkr, rfl⟩ := List.mem_map.mp hl
  exact ⟨kr.1, kr.2, hkr, hhl⟩

/-- In a duplicate-free map, membership determines the lookup. -/
theorem mem_alookup_of_nodup {β : Type} (l : List (String × β)) (k : String) (v : β)
    (hnd : nodupFst l) (h : (k, v) ∈ l) : alookup l k = some v := by
  induction l with
  | nil => exact absurd h (List.not_mem_nil _)
  | cons p rest ih =>
    rw [nodupFst, List.map_cons] at hnd
    have hcons := List.nodup_cons.mp hnd
    rcases List.mem_cons.mp h with heq | hrest
    · rw [← heq, alookup_cons, if_pos (by simp)]
    · rw [alookup_cons]
      have hne : ¬ (p.1 == k) = true := by
        simp only [beq_iff_eq]
        intro he
        apply hcons.1
        rw [he]
        exact List.mem_map_of_mem _ hrest
      rw [if_neg hne]
      exact ih hcons.2 hrest

/-- Two rings rebuilt from permuted weight maps agree on the owner of
every live position (given collision-freedom). -/
theorem calcRing_owner_eq (mA mB : Map) (repsA repsB : List (String × Int))
    (hhash : mA.hash = mB.hash)
    (hokA : cachesOk mA mA.hashs) (hokB : cachesOk mB mB.hashs)
    (hndA : nodupFst repsA) (hndB : nodupFst repsB)
    (hperm : repsA.Perm repsB)
    (huniqA : ∀ k r i k' r' i', (k, r) ∈ repsA → (k', r') ∈ repsA →
      i < r.toNat → i' < r'.toNat →
      hv mA (toString i ++ k) = hv mA (toString i' ++ k') → i = i' ∧ k = k') :
    ∀ h ∈ (calcRing mA repsA).keys,
      alookup (calcRing mA repsA).hashMap h = alookup (calcRing mB repsB).hashMap h := by
  intro h hmem
  obtain ⟨k, r, hkr, hused⟩ := mem_calcRing_keys mA repsA hokA h hmem
  have hA := calcRing_owner_hit mA repsA hokA hndA huniqA k r hkr h hused
  have hkrB : (k, r) ∈ repsB := hperm.mem_iff.mp hkr
  have husedB : h ∈ usedOf mB k r := by
    rw [← usedOf_hash_congr mA mB hhash]
    exact hused
  have huniqB : ∀ k r i k' r' i', (k, r) ∈ repsB → (k', r') ∈ repsB →
      i < r.toNat → i' < r'.toNat →
      hv mB (toString i ++ k) = hv mB (toString i' ++ k') → i = i' ∧ k = k' := by
    intro a b c d e f h1 h2 h3 h4 h5
    apply huniqA a b c d e f (hperm.mem_iff.mpr h1) (hperm.mem_iff.mpr h2) h3 h4
    have hvh : hv mA = hv mB := by
      funext s
      simp only [hv, hhash]
    rw [hvh]
    exact h5
  have hB := calcRing_owner_hit mB repsB hokB hndB huniqB k r hkrB h husedB
  rw [hA, hB]



/-- Writing the same pair preserves map agreement. -/
theorem funEq_aset {β : Type} (l₁ l₂ : List (String × β)) (k : String) (v : β)
    (h : funEq l₁ l₂) : funEq (aset l₁ k v) (aset l₂ k v) := by
  intro x
  rw [alookup_aset, alookup_aset]
  by_cases hxk : x = k
  · rw [if_pos hxk, if_pos hxk]
  · rw [if_neg hxk, if_neg hxk]
    exact h x

/-- The arc statistics depend only on the sorted keys and the owners of
live positions. -/
theorem computeStat_congr (mA mB : Map)
    (hkeys : mA.keys = mB.keys)
    (hown : ∀ h ∈ mA.keys, alookup mA.hashMap h = alookup mB.hashMap h) :
    computeStat mA = computeStat mB := by
  have hownD : ∀ h ∈ mA.keys, ownerOf mA h = ownerOf mB h := by
    intro h hm
    simp only [ownerOf, hown h hm]
  have hfold : ∀ (l : List (Nat × Nat)) (st : List (String × Int)),
      (∀ pr ∈ l, pr.2 ∈ mA.keys) →
      (l.foldl (fun st pr => aadd st (ownerOf mA pr.2) ((pr.2 : Int) - (pr.1 : Int))) st)
        = (l.foldl (fun st pr => aadd st (ownerOf mB pr.2) ((pr.2 : Int) - (pr.1 : Int))) st) := by
    intro l
    induction l with
    | nil => intro st _; rfl
    | cons pr rest ih =>
      intro st hl
      simp only [List.foldl_cons]
      rw [hownD pr.2 (hl pr (List.mem_cons_self _ _))]
      exact ih _ (fun q hq => hl q (List.mem_cons_of_mem _ hq))
  simp only [computeStat]
  cases hke : mA.keys with
  | nil =>
    rw [hke] at hkeys
    rw [← hkeys]
  | cons k0 ktl =>
    have hkeB : mB.keys = k0 :: ktl := by rw [← hkeys, hke]
    rw [hkeB]
    dsimp only
    rw [hownD k0 (by rw [hke]; exact List.mem_cons_self _ _)]
    apply hfold
    intro pr hpr
    obtain ⟨p1, p2⟩ := pr
    have h2 := (List.of_mem_zip hpr).2
    simp only [List.tail_cons] at h2
    rw [hke]
    exact List.mem_cons_of_mem _ h2



/-- The pass fold sends function-equal working weights to function-equal
results with the same changed flag. -/
theorem passFold_congr (dF : Int → Int → Int → Int → Int) (mA mB : Map)
    (hrepl : funEq mA.replicas mB.replicas) (W : Int) :
    ∀ (stat : List (String × Int)) (accA accB : List (String × Int) × Bool),
      funEq accA.1 accB.1 → accA.2 = accB.2 →
      funEq ((stat.foldl
          (fun acc kv =>
            let rep := (alookup acc.1 kv.1).getD 0
            let delta := dF kv.2 rep ((alookup mA.replicas kv.1).getD 0) W
            let u := applyOne delta rep
            (if u.2 then aset acc.1 kv.1 u.1 else acc.1, acc.2 || u.2)) accA).1)
        ((stat.foldl
          (fun acc kv =>
            let rep := (alookup acc.1 kv.1).getD 0
            let delta := dF kv.2 rep ((alookup mB.replicas kv.1).getD 0) W
            let u := applyOne delta rep
            (if u.2 then aset acc.1 kv.1 u.1 else acc.1, acc.2 || u.2)) accB).1)
      ∧ (stat.foldl
          (fun acc kv =>
            let rep := (alookup acc.1 kv.1).getD 0
            let delta := dF kv.2 rep ((alookup mA.replicas kv.1).getD 0) W
            let u := applyOne delta rep
            (if u.2 then aset acc.1 kv.1 u.1 else acc.1, acc.2 || u.2)) accA).2
        = (stat.foldl
          (fun acc kv =>
            let rep := (alookup acc.1 kv.1).getD 0
            let delta := dF kv.2 rep ((alookup mB.replicas kv.1).getD 0) W
            let u := applyOne delta rep
            (if u.2 then aset acc.1 kv.1 u.1 else acc.1, acc.2 || u.2)) accB).2 := by
  intro stat
  induction stat with
  | nil => intro accA accB h1 h2; exact ⟨h1, h2⟩
  | cons kv rest ih =>
    intro accA accB h1 h2
    simp only [List.foldl_cons]
    apply ih
    · dsimp only
      rw [h1 kv.1, hrepl kv.1]
      split
      · exact funEq_aset _ _ _ _ h1
      · exact h1
    · dsimp only
      rw [h1 kv.1, hrepl kv.1, h2]

/-- A pass preserves map agreement and computes the same changed flag. -/
theorem applyPass_congr (dF : Int → Int → Int → Int → Int) (mA mB : Map)
    (hrepl : funEq mA.replicas mB.replicas) (W : Int) (stat : List (String × Int))
    (repsA repsB : List (String × Int)) (hreps : funEq repsA repsB) :
    funEq (applyPass dF mA stat repsA W).1 (applyPass dF mB stat repsB W).1
    ∧ (applyPass dF mA stat repsA W).2 = (applyPass dF mB stat repsB W).2 :=
  passFold_congr dF mA mB hrepl W stat (repsA, false) (repsB, false) hreps rfl

/-- The pass fold preserves freedom from duplicate keys. -/
theorem passFold_nodup (dF : Int → Int → Int → Int → Int) (m : Map) (W : Int) :
    ∀ (stat : List (String × Int)) (acc : List (String × Int) × Bool),
      nodupFst acc.1 →
      nodupFst ((stat.foldl
        (fun acc kv =>
          let rep := (alookup acc.1 kv.1).getD 0
          let delta := dF kv.2 rep ((alookup m.replicas kv.1).getD 0) W
          let u := applyOne delta rep
          (if u.2 then aset acc.1 kv.1 u.1 else acc.1, acc.2 || u.2)) acc).1) := by
  intro stat
  induction stat with
  | nil => intro acc h; exact h
  | cons kv rest ih =>
    intro acc h
    simp only [List.foldl_cons]
    apply ih
    dsimp only
    split
    · exact nodupFst_aset _ _ _ h
    · exact h

/-- A pass preserves freedom from duplicate keys. -/
theorem applyPass_nodup (dF : Int → Int → Int → Int → Int) (m : Map) (W : Int)
    (stat reps : List (String × Int)) (h : nodupFst reps) :
    nodupFst (applyPass dF m stat reps W).1 :=
  passFold_nodup dF m W stat (reps, false) h

/-- The total weight is invariant under permutation. -/
theorem sumWeights_perm (l₁ l₂ : List (String × Int)) (h : l₁.Perm l₂) :
    sumWeights l₁ = sumWeights l₂ := by
  simp only [sumWeights]
  have inst : RightCommutative (fun (a : Int) (p : String × Int) => a + p.2) :=
    ⟨by intro a b c; omega⟩
  exact h.foldl_eq 0



/-- `calc` does not touch the hash function. -/
theorem calcRing_hash (m : Map) (reps : List (String × Int)) :
    (calcRing m reps).hash = m.hash := rfl

/-- The adjuster loop does not touch the registered membership. -/
theorem adjustLoop_replicas (dF : Int → Int → Int → Int → Int) (W : Int) :
    ∀ (fuel : Nat) (m : Map) (reps : List (String × Int)),
      (adjustLoop dF W fuel m reps).replicas = m.replicas := by
  intro fuel
  induction fuel with
  | zero => intro m reps; rfl
  | succ fuel ih =>
    intro m reps
    simp only [adjustLoop]
    split
    · rw [ih]
      rfl
    · rfl

/-- The adjuster loop does not touch the hash function. -/
theorem adjustLoop_hash (dF : Int → Int → Int → Int → Int) (W : Int) :
    ∀ (fuel : Nat) (m : Map) (reps : List (String × Int)),
      (adjustLoop dF W fuel m reps).hash = m.hash := by
  intro fuel
  induction fuel with
  | zero => intro m reps; rfl
  | succ fuel ih =>
    intro m reps
    simp only [adjustLoop]
    split
    · rw [ih]
      rfl
    · rfl

/-- Bisimulation of the adjuster loop: two loop runs over rings with
equal keys, agreeing owners, function-equal memberships and working
weights, valid caches, and collision-free materialized virtual keys,
produce equal keys and agreeing owners. -/
theorem adjustLoop_bisim (dF : Int → Int → Int → Int → Int) (W : Int) :
    ∀ (fuel : Nat) (mA mB : Map) (repsA repsB : List (String × Int)),
      mA.hash = mB.hash →
      mA.keys = mB.keys →
      (∀ h ∈ mA.keys, alookup mA.hashMap h = alookup mB.hashMap h) →
      funEq mA.replicas mB.replicas →
      funEq repsA repsB →
      nodupFst repsA → nodupFst repsB →
      cachesOk mA mA.hashs → cachesOk mB mB.hashs →
      InjOnCaches (adjustLoop dF W fuel mA repsA) →
      (adjustLoop dF W fuel mA repsA).keys = (adjustLoop dF W fuel mB repsB).keys
      ∧ ∀ h ∈ (adjustLoop dF W fuel mA repsA).keys,
          alookup (adjustLoop dF W fuel mA repsA).hashMap h
            = alookup (adjustLoop dF W fuel mB repsB).hashMap h := by
  intro fuel
  induction fuel with
  | zero =>
    intro mA mB repsA repsB _ hkeys hown _ _ _ _ _ _ _
    exact ⟨hkeys, hown⟩
  | succ fuel ih =>
    intro mA mB repsA repsB hhash hkeys hown hrepl hreps hndA hndB hokA hokB hinjA
    have hstat : computeStat mA = computeStat mB := computeStat_congr mA mB hkeys hown
    have hpass := applyPass_congr dF mA mB hrepl W (computeStat mA) repsA repsB hreps
    simp only [adjustLoop] at hinjA ⊢
    rw [← hstat, ← hpass.2]
    by_cases hch : (applyPass dF mA (computeStat mA) repsA W).2 = true
    · rw [if_pos hch] at hinjA
      rw [if_pos hch, if_pos hch]
      set repsA' := (applyPass dF mA (computeStat mA) repsA W).1 with hra
      set repsB' := (applyPass dF mB (computeStat mA) repsB W).1 with hrb
      have hfun' : funEq repsA' repsB' := hpass.1
      have hndA' : nodupFst repsA' := applyPass_nodup dF mA W _ repsA hndA
      have hndB' : nodupFst repsB' := applyPass_nodup dF mB W _ repsB hndB
      have hperm' : repsA'.Perm repsB' := perm_of_funEq _ _ hndA' hndB' hfun'
      -- uniqueness for the new working weights from the final caches
      have hcovA : ∀ k r, (k, r) ∈ repsA' →
          ∃ hs, alookup (adjustLoop dF W fuel (calcRing mA repsA') repsA').hashs k
            = some hs ∧ r.toNat ≤ hs.length := by
        intro k r hk
        obtain ⟨hs, hls, hlen⟩ := calcRing_cache_covers mA repsA' k r hk
        obtain ⟨hs', hls', hlen'⟩ :=
          adjustLoop_cacheLe dF W fuel (calcRing mA repsA') repsA' k hs hls
        exact ⟨hs', hls', le_trans hlen hlen'⟩
      have hhout : mA.hash = (adjustLoop dF W fuel (calcRing mA repsA') repsA').hash := by
        rw [adjustLoop_hash, calcRing_hash]
      have huniqA := uniq_of_inj mA
        (adjustLoop dF W fuel (calcRing mA repsA') repsA') repsA' hhout hcovA hinjA
      have hkeys' : (calcRing mA repsA').keys = (calcRing mB repsB').keys :=
        calcRing_keys_eq mA mB repsA' repsB' hhash hokA hokB hperm'
      have hown' : ∀ h ∈ (calcRing mA repsA').keys,
          alookup (calcRing mA repsA').hashMap h
            = alookup (calcRing mB repsB').hashMap h :=
        calcRing_owner_eq mA mB repsA' repsB' hhash hokA hokB hndA' hndB' hperm' huniqA
      exact ih (calcRing mA repsA') (calcRing mB repsB') repsA' repsB'
        hhash hkeys' hown' hrepl hfun' hndA' hndB'
        (calcRing_cachesOk mA repsA' hokA) (calcRing_cachesOk mB repsB' hokB) hinjA
    · rw [if_neg hch] at hinjA
      rw [if_neg hch, if_neg hch]
      exact ⟨hkeys, hown⟩



/-- `adjust` does not touch the registered membership. -/
theorem adjust_replicas (dF : Int → Int → Int → Int → Int) (m : Map) (tries : Nat) :
    (adjust dF m tries).replicas = m.replicas := by
  simp only [adjust]
  split
  · rfl
  · split
    · rfl
    · rw [adjustLoop_replicas]
      rfl

/-- `adjust` does not touch the hash function. -/
theorem adjust_hash (dF : Int → Int → Int → Int → Int) (m : Map) (tries : Nat) :
    (adjust dF m tries).hash = m.hash := by
  simp only [adjust]
  split
  · rfl
  · split
    · rfl
    · rw [adjustLoop_hash]
      rfl

/-- `calc` does not touch the default replica count. -/
theorem calcRing_replica (m : Map) (reps : List (String × Int)) :
    (calcRing m reps).replica = m.replica := rfl

/-- `adjust` on a dirty ring: rebuild, then possibly iterate. -/
theorem adjust_eq_of_dirty (dF : Int → Int → Int → Int → Int) (m : Map) (tries : Nat)
    (hk : m.keys = []) :
    adjust dF m tries
      = if (calcRing m m.replicas).replicas.length ≤ 1 ∨ (calcRing m m.replicas).replica < 10
        then calcRing m m.replicas
        else adjustLoop dF (sumWeights (calcRing m m.replicas).replicas) tries
          (calcRing m m.replicas) (calcRing m m.replicas).replicas := by
  simp only [adjust]
  rw [if_neg (by rw [hk]; exact fun h => h rfl)]

/-- Bisimulation of `adjust` from two dirty states with the same hash,
default replica count and membership function. -/
theorem adjust_bisim (dF : Int → Int → Int → Int → Int) (dA dB : Map) (tries : Nat)
    (hhash : dA.hash = dB.hash) (hrep : dA.replica = dB.replica)
    (hkA : dA.keys = []) (hkB : dB.keys = [])
    (hfun : funEq dA.replicas dB.replicas)
    (hndA : nodupFst dA.replicas) (hndB : nodupFst dB.replicas)
    (hokA : cachesOk dA dA.hashs) (hokB : cachesOk dB dB.hashs)
    (hinjA : InjOnCaches (adjust dF dA tries)) :
    (adjust dF dA tries).keys = (adjust dF dB tries).keys
    ∧ ∀ h ∈ (adjust dF dA tries).keys,
        alookup (adjust dF dA tries).hashMap h
          = alookup (adjust dF dB tries).hashMap h := by
  have hperm : dA.replicas.Perm dB.replicas :=
    perm_of_funEq _ _ hndA hndB hfun
  have hlen : dA.replicas.length = dB.replicas.length := hperm.length_eq
  have hW : sumWeights dA.replicas = sumWeights dB.replicas := sumWeights_perm _ _ hperm
  have hA := adjust_eq_of_dirty dF dA tries hkA
  have hB := adjust_eq_of_dirty dF dB tries hkB
  rw [calcRing_replicas, calcRing_replica] at hA hB
  by_cases hskip : dA.replicas.length ≤ 1 ∨ dA.replica < 10
  · rw [if_pos hskip] at hA
    rw [if_pos (by rw [← hlen, ← hrep]; exact hskip)] at hB
    rw [hA] at hinjA
    have huniqA := uniq_of_inj dA (calcRing dA dA.replicas) dA.replicas rfl
      (fun k r hk => calcRing_cache_covers dA dA.replicas k r hk) hinjA
    rw [hA, hB]
    exact ⟨calcRing_keys_eq dA dB dA.replicas dB.replicas hhash hokA hokB hperm,
      calcRing_owner_eq dA dB dA.replicas dB.replicas hhash hokA hokB hndA hndB
        hperm huniqA⟩
  · rw [if_neg hskip] at hA
    rw [if_neg (by rw [← hlen, ← hrep]; exact hskip)] at hB
    rw [hA] at hinjA
    have hcovA : ∀ k r, (k, r) ∈ dA.replicas →
        ∃ hs, alookup (adjustLoop dF (sumWeights dA.replicas) tries
            (calcRing dA dA.replicas) dA.replicas).hashs k = some hs
          ∧ r.toNat ≤ hs.length := by
      intro k r hk
      obtain ⟨hs, hls, hlen1⟩ := calcRing_cache_covers dA dA.replicas k r hk
      obtain ⟨hs2, hls2, hlen2⟩ := adjustLoop_cacheLe dF (sumWeights dA.replicas) tries
        (calcRing dA dA.replicas) dA.replicas k hs hls
      exact ⟨hs2, hls2, le_trans hlen1 hlen2⟩
    have hhout : dA.hash = (adjustLoop dF (sumWeights dA.replicas) tries
        (calcRing dA dA.replicas) dA.replicas).hash := by
      rw [adjustLoop_hash, calcRing_hash]
    have huniqA := uniq_of_inj dA (adjustLoop dF (sumWeights dA.replicas) tries
      (calcRing dA dA.replicas) dA.replicas) dA.replicas hhout hcovA hinjA
    have hloop := adjustLoop_bisim dF (sumWeights dA.replicas) tries
      (calcRing dA dA.replicas) (calcRing dB dB.replicas) dA.replicas dB.replicas
      (by rw [calcRing_hash, calcRing_hash]; exact hhash)
      (calcRing_keys_eq dA dB dA.replicas dB.replicas hhash hokA hokB hperm)
      (calcRing_owner_eq dA dB dA.replicas dB.replicas hhash hokA hokB hndA hndB
        hperm huniqA)
      (by rw [calcRing_replicas, calcRing_replicas]; exact hfun)
      hfun hndA hndB
      (calcRing_cachesOk dA dA.replicas hokA) (calcRing_cachesOk dB dB.replicas hokB)
      hinjA
    rw [hA, hB, ← hW]
    exact hloop



/-- `Get` depends only on the hash, the keys, the owners of live
positions, and whether any node is registered. -/
theorem Get_congr (mA mB : Map) (key : String)
    (hhash : mA.hash = mB.hash)
    (hkeys : mA.keys = mB.keys)
    (hown : ∀ h ∈ mA.keys, alookup mA.hashMap h = alookup mB.hashMap h)
    (hlen : mA.replicas.length = mB.replicas.length) :
    Get mA key = Get mB key := by
  have hie : IsEmpty mA = IsEmpty mB := by simp [IsEmpty, hlen]
  simp only [Get, hie, hkeys]
  by_cases h1 : IsEmpty mB = true
  · rw [if_pos h1, if_pos h1]
  · rw [if_neg h1, if_neg h1]
    by_cases h2 : mB.keys = []
    · rw [if_pos h2, if_pos h2]
    · rw [if_neg h2, if_neg h2]
      have hidx : lookupIdx mA key = lookupIdx mB key := by
        simp only [lookupIdx, hkeys, hv, hhash]
      have hmem : mB.keys.getD (lookupIdx mB key) 0 ∈ mB.keys := by
        rw [List.getD_eq_getElem _ _ (lookupIdx_lt mB key h2)]
        exact List.getElem_mem _
      rw [hidx]
      simp only [ownerOf]
      rw [hown _ (by rw [hkeys]; exact hmem)]

/-- All components of a state preserved by every operation: instance
hash, default replica, no duplicate node keys, and valid caches. -/
def StInv (r : Int) (fn : String → Nat) (m : Map) : Prop :=
  m.hash = fn ∧ m.replica = r ∧ nodupFst m.replicas ∧ cachesOk m m.hashs

/-- Cache validity depends only on the hash function. -/
theorem cachesOk_congr (m₁ m₂ : Map) (hss : List (String × List Nat))
    (h : m₁.hash = m₂.hash) (hok : cachesOk m₁ hss) : cachesOk m₂ hss := by
  intro k hs hl i hi
  rw [show hv m₂ = hv m₁ from by funext s; simp only [hv, h]]
  exact hok k hs hl i hi

/-- The adjuster loop preserves the state invariant. -/
theorem adjustLoop_StInv (dF : Int → Int → Int → Int → Int) (W : Int) (r : Int)
    (fn : String → Nat) :
    ∀ (fuel : Nat) (m : Map) (reps : List (String × Int)),
      StInv r fn m → StInv r fn (adjustLoop dF W fuel m reps) := by
  intro fuel
  induction fuel with
  | zero => intro m reps h; exact h
  | succ fuel ih =>
    intro m reps h
    simp only [adjustLoop]
    split
    · apply ih
      exact ⟨h.1, h.2.1, h.2.2.1, calcRing_cachesOk m _ h.2.2.2⟩
    · exact h

/-- `adjust` preserves the state invariant. -/
theorem adjust_StInv (dF : Int → Int → Int → Int → Int) (r : Int) (fn : String → Nat)
    (m : Map) (tries : Nat) (h : StInv r fn m) : StInv r fn (adjust dF m tries) := by
  simp only [adjust]
  split
  · exact h
  · split
    · exact ⟨h.1, h.2.1, h.2.2.1, calcRing_cachesOk m _ h.2.2.2⟩
    · exact adjustLoop_StInv dF _ r fn tries _ _
        ⟨h.1, h.2.1, h.2.2.1, calcRing_cachesOk m _ h.2.2.2⟩

/-- Deletion shrinks the key list. -/
theorem adel_map_sublist {β : Type} (l : List (String × β)) (k : String) :
    ((adel l k).map (·.1)).Sublist (l.map (·.1)) := by
  simp only [adel]
  exact List.Sublist.map _ (List.filter_sublist _)

/-- Deletion preserves freedom from duplicate keys. -/
theorem nodupFst_adel {β : Type} (l : List (String × β)) (k : String)
    (h : nodupFst l) : nodupFst (adel l k) :=
  List.Nodup.sublist (adel_map_sublist l k) h

/-- The map-delete/map-read law. -/
theorem alookup_adel {β : Type} (l : List (String × β)) (k x : String) :
    alookup (adel l x) k = if k = x then none else alookup l k := by
  induction l with
  | nil => simp [adel, alookup]
  | cons p rest ih =>
    simp only [adel, List.filter]
    by_cases hpx : (p.1 == x) = true
    · have : (!(p.1 == x)) = false := by rw [hpx]; rfl
      rw [this]
      simp only [adel] at ih
      rw [ih]
      by_cases hkx : k = x
      · rw [if_pos hkx, if_pos hkx]
      · rw [if_neg hkx, if_neg hkx, alookup_cons]
        have : ¬ (p.1 == k) = true := by
          simp only [beq_iff_eq] at hpx ⊢
          rw [hpx]
          exact fun he => hkx he.symm
        rw [if_neg this]
    · have : (!(p.1 == x)) = true := by
        rw [bool_eq_false hpx]
        rfl
      rw [this]
      rw [alookup_cons, alookup_cons]
      by_cases hpk : (p.1 == k) = true
      · rw [if_pos hpk, if_pos hpk]
        have hkx : ¬ k = x := by
          simp only [beq_iff_eq] at hpk hpx
          rw [← hpk]
          exact fun he => hpx he
        rw [if_neg hkx]
      · rw [if_neg hpk, if_neg hpk]
        simp only [adel] at ih
        rw [ih]

/-- `AddWithWeight` preserves the state invariant. -/
theorem AddWithWeight_StInv (dF : Int → Int → Int → Int → Int) (r : Int)
    (fn : String → Nat) (m : Map) (key : String) (w : Int) (h : StInv r fn m) :
    StInv r fn (AddWithWeight dF m key w).1 := by
  simp only [AddWithWeight]
  split
  · exact h
  · split
    · apply adjust_StInv
      exact ⟨h.1, h.2.1, nodupFst_aset _ _ _ h.2.2.1, h.2.2.2⟩
    · exact h

/-- `Add`'s loop preserves the state invariant. -/
theorem Add_StInv (dF : Int → Int → Int → Int → Int) (r : Int) (fn : String → Nat) :
    ∀ (ks : List String) (acc : Map × Option String), StInv r fn acc.1 →
      StInv r fn ((ks.foldl
        (fun acc k =>
          match acc.2 with
          | none => AddWithWeight dF acc.1 k acc.1.replica
          | some e => (acc.1, some e)) acc).1) := by
  intro ks
  induction ks with
  | nil => intro acc h; exact h
  | cons k rest ih =>
    intro acc h
    simp only [List.foldl_cons]
    apply ih
    cases acc.2 with
    | none => exact AddWithWeight_StInv dF r fn acc.1 k acc.1.replica h
    | some e => exact h

/-- Every public mutation preserves the state invariant. -/
theorem runOp_StInv (dF : Int → Int → Int → Int → Int) (r : Int) (fn : String → Nat)
    (m : Map) (op : Op) (h : StInv r fn m) : StInv r fn (runOp dF m op) := by
  cases op with
  | add ks => exact Add_StInv dF r fn ks (m, none) h
  | addW k w => exact AddWithWeight_StInv dF r fn m k w h
  | rem k =>
    simp only [runOp, Remove]
    split
    · apply adjust_StInv
      refine ⟨h.1, h.2.1, nodupFst_adel _ _ h.2.2.1, ?_⟩
      intro kk hs hl i hi
      rw [alookup_adel] at hl
      split at hl
      · exact absurd hl (by simp)
      · exact h.2.2.2 kk hs hl i hi
    · exact h

/-- Every reachable state satisfies the state invariant. -/
theorem runOps_StInv (dF : Int → Int → Int → Int → Int) (r : Int) (fn : String → Nat)
    (ops : List Op) : StInv r fn (runOps dF r fn ops) := by
  have hbase : StInv r fn (New r fn) :=
    ⟨rfl, rfl, List.nodup_nil, fun k hs hl => by simp [New, alookup, List.find?] at hl⟩
  have : ∀ (l : List Op) (m : Map), StInv r fn m → StInv r fn (l.foldl (runOp dF) m) := by
    intro l
    induction l with
    | nil => intro m h; exact h
    | cons op rest ih => intro m h; exact ih _ (runOp_StInv dF r fn m op h)
  exact this ops _ hbase



/-- Shape of a reachable state: either untouched, or the output of
`adjust(5, 0.75)` on a dirty state with the same final membership. -/
def Shaped (dF : Int → Int → Int → Int → Int) (r : Int) (fn : String → Nat)
    (m : Map) : Prop :=
  m = New r fn
  ∨ ∃ d : Map, d.keys = [] ∧ d.hash = fn ∧ d.replica = r ∧ nodupFst d.replicas
      ∧ cachesOk d d.hashs ∧ d.replicas = m.replicas ∧ m = adjust dF d 5

/-- `AddWithWeight` leaves the state in shaped form. -/
theorem AddWithWeight_Shaped (dF : Int → Int → Int → Int → Int) (r : Int)
    (fn : String → Nat) (m : Map) (key : String) (w : Int)
    (hst : StInv r fn m) (hsh : Shaped dF r fn m) :
    Shaped dF r fn (AddWithWeight dF m key w).1 := by
  simp only [AddWithWeight]
  split
  · exact hsh
  · split
    · right
      refine ⟨{ m with keys := [], replicas := aset m.replicas key w }, rfl, hst.1,
        hst.2.1, nodupFst_aset _ _ _ hst.2.2.1, hst.2.2.2, ?_, rfl⟩
      rw [adjust_replicas]
    · exact hsh

/-- `Add`'s loop leaves the state in shaped form. -/
theorem Add_Shaped (dF : Int → Int → Int → Int → Int) (r : Int) (fn : String → Nat) :
    ∀ (ks : List String) (acc : Map × Option String),
      StInv r fn acc.1 → Shaped dF r fn acc.1 →
      Shaped dF r fn ((ks.foldl
        (fun acc k =>
          match acc.2 with
          | none => AddWithWeight dF acc.1 k acc.1.replica
          | some e => (acc.1, some e)) acc).1) := by
  intro ks
  induction ks with
  | nil => intro acc _ h; exact h
  | cons k rest ih =>
    intro acc hst hsh
    simp only [List.foldl_cons]
    apply ih
    · cases acc.2 with
      | none => exact AddWithWeight_StInv dF r fn acc.1 k acc.1.replica hst
      | some e => exact hst
    · cases acc.2 with
      | none => exact AddWithWeight_Shaped dF r fn acc.1 k acc.1.replica hst hsh
      | some e => exact hsh

/-- Every public mutation leaves the state in shaped form. -/
theorem runOp_Shaped (dF : Int → Int → Int → Int → Int) (r : Int) (fn : String → Nat)
    (m : Map) (op : Op) (hst : StInv r fn m) (hsh : Shaped dF r fn m) :
    Shaped dF r fn (runOp dF m op) := by
  cases op with
  | add ks => exact Add_Shaped dF r fn ks (m, none) hst hsh
  | addW k w => exact AddWithWeight_Shaped dF r fn m k w hst hsh
  | rem k =>
    simp only [runOp, Remove]
    split
    · right
      refine ⟨{ m with replicas := adel m.replicas k, hashs := adel m.hashs k, keys := [] }, rfl, hst.1, hst.2.1, nodupFst_adel _ _ hst.2.2.1, ?_, ?_, rfl⟩
      · intro kk hs hl i hi
        rw [alookup_adel] at hl
        split at hl
        · exact absurd hl (by simp)
        · exact hst.2.2.2 kk hs hl i hi
      · rw [adjust_replicas]
    · exact hsh

/-- Every reachable state is in shaped form. -/
theorem runOps_Shaped (dF : Int → Int → Int → Int → Int) (r : Int) (fn : String → Nat)
    (ops : List Op) : Shaped dF r fn (runOps dF r fn ops) := by
  have : ∀ (l : List Op) (m : Map), StInv r fn m → Shaped dF r fn m →
      Shaped dF r fn (l.foldl (runOp dF) m) := by
    intro l
    induction l with
    | nil => intro m _ h; exact h
    | cons op rest ih =>
      intro m hst hsh
      exact ih _ (runOp_StInv dF r fn m op hst) (runOp_Shaped dF r fn m op hst hsh)
  exact this ops (New r fn)
    ⟨rfl, rfl, List.nodup_nil, fun k hs hl => by simp [New, alookup, List.find?] at hl⟩
    (Or.inl rfl)



/-- C9 (amended): two rings constructed by any sequences of operations
(same hash function, same default replica count, same float behaviour)
that reach the same node→weight mapping return the same owner for every
key, provided the materialized virtual keys are collision-free. -/
theorem get_deterministic (dF : Int → Int → Int → Int → Int) (r : Int)
    (fn : String → Nat) (opsA opsB : List Op) (key : String)
    (hfun : funEq (runOps dF r fn opsA).replicas (runOps dF r fn opsB).replicas)
    (hinjA : InjOnCaches (runOps dF r fn opsA)) :
    Get (runOps dF r fn opsA) key = Get (runOps dF r fn opsB) key := by
  have hemptyCase : ∀ (mX mY : Map), mX.replicas = [] →
      (∀ k, alookup mX.replicas k = alookup mY.replicas k) →
      Get mX key = Get mY key := by
    intro mX mY hX hf
    have hY : mY.replicas = [] := eq_nil_of_alookup_none _ (fun k => by
      rw [← hf k, hX]
      rfl)
    simp [Get, IsEmpty, hX, hY]
  rcases runOps_Shaped dF r fn opsA with hshA |
    ⟨dA, hdAk, hdAh, hdAr, hdAn, hdAc, hdAre, hdAeq⟩
  · have hArep : (runOps dF r fn opsA).replicas = [] := by rw [hshA]; rfl
    exact hemptyCase _ _ hArep hfun
  · rcases runOps_Shaped dF r fn opsB with hshB |
      ⟨dB, hdBk, hdBh, hdBr, hdBn, hdBc, hdBre, hdBeq⟩
    · have hBrep : (runOps dF r fn opsB).replicas = [] := by rw [hshB]; rfl
      exact (hemptyCase _ _ hBrep (fun k => (hfun k).symm)).symm
    · have hfun' : funEq dA.replicas dB.replicas := by
        intro k
        rw [hdAre, hdBre]
        exact hfun k
      have hbis := adjust_bisim dF dA dB 5 (by rw [hdAh, hdBh]) (by rw [hdAr, hdBr])
        hdAk hdBk hfun' hdAn hdBn hdAc hdBc (by rw [← hdAeq]; exact hinjA)
      have hperm := perm_of_funEq _ _ hdAn hdBn hfun'
      apply Get_congr
      · rw [hdAeq, hdBeq, adjust_hash, adjust_hash, hdAh, hdBh]
      · rw [hdAeq, hdBeq]
        exact hbis.1
      · rw [hdAeq, hdBeq]
        exact hbis.2
      · rw [← hdAre, ← hdBre]
        exact hperm.length_eq



/-- The collision ring of `mC3` built in the opposite order. -/
def mC9b : Map := (Add dZero (New 1 hConst) ["b", "a"]).1

/-- Witness run A: add "6" then "4". -/
def opsC9A : List Op := [Op.add ["6", "4"]]

/-- Witness run B: add "4" then "6". -/
def opsC9B : List Op := [Op.add ["4", "6"]]

/-- C9 counterexample: two rings with identical final membership
{a↦1, b↦1}, built by adding the nodes in opposite orders under a
colliding hash, return different owners for the same key (in Go the
iteration order of the replicas map is randomised, so a single ring can
return either answer). -/
theorem get_order_dependent_on_collision :
    (∀ k, alookup mC3.replicas k = alookup mC9b.replicas k)
    ∧ Get mC3 "x" = some "b" ∧ Get mC9b "x" = some "a" := by
  refine ⟨?_, by decide, by decide⟩
  intro k
  by_cases h1 : k = "a"
  · subst h1
    decide
  · by_cases h2 : k = "b"
    · subst h2
      decide
    · have e1 : mC3.replicas.map (·.1) = ["a", "b"] := by decide
      have e2 : mC9b.replicas.map (·.1) = ["b", "a"] := by decide
      rw [alookup_eq_none_of_not_mem_fst _ _ (by
          rw [e1]
          intro hc
          rcases List.mem_cons.mp hc with h | hc2
          · exact h1 h
          · rcases List.mem_cons.mp hc2 with h | hc3
            · exact h2 h
            · exact List.not_mem_nil _ hc3),
        alookup_eq_none_of_not_mem_fst _ _ (by
          rw [e2]
          intro hc
          rcases List.mem_cons.mp hc with h | hc2
          · exact h2 h
          · rcases List.mem_cons.mp hc2 with h | hc3
            · exact h1 h
            · exact List.not_mem_nil _ hc3)]

/-- The concrete caches of the witness run. -/
theorem hashsA_char : ∀ kk hh,
    alookup (runOps dZero 3 numHash opsC9A).hashs kk = some hh →
    (kk = "6" ∧ hh = [6, 16, 26]) ∨ (kk = "4" ∧ hh = [4, 14, 24]) := by
  have e : (runOps dZero 3 numHash opsC9A).hashs
      = [("6", [6, 16, 26]), ("4", [4, 14, 24])] := by decide
  intro kk hh hl
  rw [e] at hl
  by_cases h6 : kk = "6"
  · subst h6
    have : alookup [("6", [6, 16, 26]), ("4", ([4, 14, 24] : List Nat))] "6"
        = some [6, 16, 26] := by decide
    rw [this] at hl
    cases hl
    exact Or.inl ⟨rfl, rfl⟩
  · by_cases h4 : kk = "4"
    · subst h4
      have : alookup [("6", [6, 16, 26]), ("4", ([4, 14, 24] : List Nat))] "4"
          = some [4, 14, 24] := by decide
      rw [this] at hl
      cases hl
      exact Or.inr ⟨rfl, rfl⟩
    · rw [alookup_eq_none_of_not_mem_fst _ _ (by
        intro hc
        rcases List.mem_cons.mp hc with h | hc2
        · exact h6 h
        · rcases List.mem_cons.mp hc2 with h | hc3
          · exact h4 h
          · exact List.not_mem_nil _ hc3)] at hl
      exact absurd hl (by simp)

/-- The witness run is collision-free. -/
theorem injA_concrete : InjOnCaches (runOps dZero 3 numHash opsC9A) := by
  intro k hs i k' hs' i' hk hi hk' hi' heq
  rcases hashsA_char k hs hk with ⟨rfl, rfl⟩ | ⟨rfl, rfl⟩ <;>
    rcases hashsA_char k' hs' hk' with ⟨rfl, rfl⟩ | ⟨rfl, rfl⟩ <;>
    simp only [List.length_cons, List.length_nil] at hi hi' <;>
    interval_cases i <;> interval_cases i' <;>
    first
      | exact ⟨rfl, rfl⟩
      | exact absurd heq (by decide)

/-- C9 witness: two concrete rings adding nodes "6" and "4" in opposite
orders resolve the same key identically. -/
theorem get_deterministic_witness :
    Get (runOps dZero 3 numHash opsC9A) "11" = Get (runOps dZero 3 numHash opsC9B) "11"
    ∧ Get (runOps dZero 3 numHash opsC9A) "11" = some "4" := by
  constructor
  · apply get_deterministic dZero 3 numHash opsC9A opsC9B "11" ?_ injA_concrete
    intro k
    by_cases h1 : k = "6"
    · subst h1
      decide
    · by_cases h2 : k = "4"
      · subst h2
        decide
      · have e1 : (runOps dZero 3 numHash opsC9A).replicas.map (·.1) = ["6", "4"] := by
          decide
        have e2 : (runOps dZero 3 numHash opsC9B).replicas.map (·.1) = ["4", "6"] := by
          decide
        rw [alookup_eq_none_of_not_mem_fst _ _ (by
            rw [e1]
            intro hc
            rcases List.mem_cons.mp hc with h | hc2
            · exact h1 h
            · rcases List.mem_cons.mp hc2 with h | hc3
              · exact h2 h
              · exact List.not_mem_nil _ hc3),
          alookup_eq_none_of_not_mem_fst _ _ (by
            rw [e2]
            intro hc
            rcases List.mem_cons.mp hc with h | hc2
            · exact h2 h
            · rcases List.mem_cons.mp hc2 with h | hc3
              · exact h1 h
              · exact List.not_mem_nil _ hc3)]
  · decide



/-! ## C7: the stable-growth claim against the iterative balancer

The counterexample drives the float expression
`int(float64(rep) * (expect - actual) / float64(expect) * scale)` (scale
0.75) only through values that are either exactly representable dyadic
rationals or interval-bounded away from the truncation boundary, so the
abstraction `dC7` below is the function the Go code computes:
- while `a` has weight 15 and `b` 16, every node's arc share is within
  0.0044 of its expected share, so every true delta lies in (-0.68, 0.68)
  and truncates to 0 (the pass still counts as "changed" by the line-276
  guard bug, but weights are only changed by the delta, which is 0 five
  times, so the ring settles at 31 positions);
- after `AddWithWeight("a", 16)` the working weights start at 16/16 and
  in pass 1 node `a` owns exactly 3/4 of the circle (arc 3221225472 =
  3·2^30): delta for `a` is exactly 16·(0.5 - 0.75)/0.5·0.75 = -6.0 and
  for `b` exactly +6.0, giving working weights 10/22;
- in pass 2 `a` owns exactly 1/4: delta for `a` is 10·(0.5 - 0.25)/0.5·0.75
  = 3.75 → 3 and for `b` 22·(0.5 - 0.75)/0.5·0.75 = -8.25 → -8, giving
  13/14;
- in passes 3-5 the true deltas lie in (-0.48, 0.48) and truncate to 0.
The final ring has 13 + 14 = 27 positions, not the 31 + 1 = 32 the claim
predicts.  Ring positions live on the grid `2^20 · g`, `g < 4096`, which
makes every arc an exact multiple of 2^20 and every share a dyadic
rational with 12-bit mantissa, so all the float arithmetic above is
exact. -/

/-- Ring-position grid slots for node `a`'s virtual keys `"0a" .. "15a"`
(index 15 is the position added when `a`'s weight reaches 16). -/
def aPosC7 : List Nat :=
  [200, 420, 640, 860, 1080, 1300, 1520, 1740, 1960, 2400, 2200, 2210, 2220, 2230, 2240, 3372]

/-- Ring-position grid slots for node `b`'s virtual keys `"0b" .. "21b"`
(indices 16-21 are the positions added as `b`'s working weight grows). -/
def bPosC7 : List Nat :=
  [0, 220, 440, 660, 880, 1100, 1320, 1540, 1760, 1980, 2000, 2020, 2040, 2060, 2080,
   2100, 2399, 199, 419, 639, 839, 881]

/-- The counterexample's hash function: virtual key `"<i><node>"` lands
on grid slot `aPosC7[i]` resp. `bPosC7[i]`, scaled by 2^20. -/
def hC7 (s : String) : Nat :=
  let cs := s.data
  (if cs.getLast? = some 'a' then aPosC7.getD (digitsVal cs.dropLast) 0
   else bPosC7.getD (digitsVal cs.dropLast) 0) * 2 ^ 20

/-- The exact value of the Go float expression on every (arc, working
weight) pair that occurs in the run (see the section comment). -/
def dC7 : Int → Int → Int → Int → Int := fun v rep _ W =>
  if rep = 16 ∧ W = 32 then (if v = 3221225472 then -6 else 6)
  else if rep = 10 then 3
  else if rep = 22 then -8
  else 0

/-- `New(16, hC7)` after `AddWithWeight("a", 15)`. -/
def mC7a : Map := (AddWithWeight dC7 (New 16 hC7) "a" 15).1

/-- ... after `AddWithWeight("b", 16)`: the settled 31-position ring. -/
def mC7pre : Map := (AddWithWeight dC7 mC7a "b" 16).1

/-- ... after raising `a`'s weight from 15 to 16. -/
def mC7post : Map := (AddWithWeight dC7 mC7pre "a" 16).1

/-- C7 (counterexample): on a 31-position ring with nodes `a` (weight
15) and `b` (weight 16), raising `a`'s weight to 16 does not add exactly
one position: the iterative balancer's passes move the working weights to
13/14 and the rebuilt ring has 27 positions, not 32. -/
theorem stable_growth_counterexample :
    alookup mC7pre.replicas "a" = some 15
    ∧ mC7pre.keys.length = 31
    ∧ mC7post.keys.length = 27
    ∧ mC7post.keys.length ≠ mC7pre.keys.length + 1 := by
  exact ⟨by decide, by decide, by decide, by decide⟩


/-- `aset` on a present key leaves the map's size unchanged. -/
theorem aset_length_found {β : Type} (l : List (String × β)) (k : String) (v : β)
    (h : (l.find? (fun p => p.1 == k)).isSome = true) :
    (aset l k v).length = l.length := by
  simp only [aset, if_pos h, List.length_map]

/-- A successful lookup means `find?` succeeds. -/
theorem find_isSome_of_alookup {β : Type} (l : List (String × β)) (k : String) (v : β)
    (h : alookup l k = some v) : (l.find? (fun p => p.1 == k)).isSome = true := by
  simp only [alookup] at h
  cases hf : l.find? (fun p => p.1 == k) with
  | none => rw [hf] at h; exact absurd h (by simp)
  | some p => rfl

/-- Raising a weight by one appends exactly one canonical position,
`hash(itoa(w) + key)`. -/
theorem usedOf_succ (m : Map) (k : String) (w : Int) (hw : 0 ≤ w) :
    usedOf m k (w + 1) = usedOf m k w ++ [hv m (toString w.toNat ++ k)] := by
  simp only [usedOf]
  have h1 : (w + 1).toNat = w.toNat + 1 := by omega
  rw [h1, List.range_succ, List.map_append]
  rfl

/-- An in-place update is the identity off the written key. -/
theorem map_update_of_not_mem {β : Type} (l : List (String × β)) (k : String) (v : β)
    (h : k ∉ l.map (·.1)) :
    l.map (fun p => if p.1 == k then (k, v) else p) = l := by
  induction l with
  | nil => rfl
  | cons p rest ih =>
    simp only [List.map_cons, List.mem_cons] at h
    push_neg at h
    have hpk : ¬ (p.1 == k) = true := by
      simp only [beq_iff_eq]
      exact fun he => h.1 he.symm
    rw [List.map_cons, if_neg hpk, ih h.2]

/-- Updating one node's weight from `w` to `w + 1` in a duplicate-free
weight map turns the flattened canonical positions into the old ones plus
exactly the one new position `hash(itoa(w) + key)`, up to order. -/
theorem flatten_update_perm (m : Map) (key : String) (w : Int) (hw : 0 ≤ w) :
    ∀ l : List (String × Int), nodupFst l → (key, w) ∈ l →
      (((l.map (fun p => if p.1 == key then (key, w + 1) else p)).map
          (fun kr => usedOf m kr.1 kr.2)).flatten).Perm
        ((l.map (fun kr => usedOf m kr.1 kr.2)).flatten
          ++ [hv m (toString w.toNat ++ key)]) := by
  intro l
  induction l with
  | nil => intro _ hmem; exact absurd hmem (List.not_mem_nil _)
  | cons p rest ih =>
    intro hnd hmem
    have hnd' : nodupFst rest := by
      simp only [nodupFst, List.map_cons, List.nodup_cons] at hnd
      exact hnd.2
    have hp1 : p.1 ∉ rest.map (·.1) := by
      simp only [nodupFst, List.map_cons, List.nodup_cons] at hnd
      exact hnd.1
    rcases List.mem_cons.mp hmem with hhead | htail
    · subst hhead
      have hrest : rest.map (fun q => if q.1 == key then (key, w + 1) else q) = rest :=
        map_update_of_not_mem rest key (w + 1) hp1
      simp only [List.map_cons, List.flatten_cons, hrest]
      rw [if_pos (by simp : (((key, w).1 == key) = true))]
      show (usedOf m key (w + 1) ++ _).Perm _
      rw [usedOf_succ m key w hw]
      simp only [List.append_assoc]
      exact List.Perm.append_left _ List.perm_append_comm
    · have hpk : ¬ (p.1 == key) = true := by
        simp only [beq_iff_eq]
        intro he
        apply hp1
        rw [he]
        exact List.mem_map.mpr ⟨(key, w), htail, rfl⟩
      simp only [List.map_cons, List.flatten_cons]
      rw [if_neg hpk]
      simp only [List.append_assoc]
      exact List.Perm.append_left _ (ih hnd' htail)

/-- `adjust` only extends caches. -/
theorem adjust_cacheLe (dF : Int → Int → Int → Int → Int) (m : Map) (tries : Nat) :
    cacheLe m.hashs (adjust dF m tries).hashs := by
  simp only [adjust]
  split
  · exact cacheLe_refl _
  · split
    · exact calcRing_cacheLe m _
    · exact cacheLe_trans (calcRing_cacheLe m _) (adjustLoop_cacheLe dF _ tries _ _)

/-- `AddWithWeight` only extends caches. -/
theorem AddWithWeight_cacheLe (dF : Int → Int → Int → Int → Int) (m : Map)
    (key : String) (w : Int) :
    cacheLe m.hashs ((AddWithWeight dF m key w).1).hashs := by
  simp only [AddWithWeight]
  split
  · exact cacheLe_refl _
  · split
    · exact adjust_cacheLe dF { m with keys := [], replicas := aset m.replicas key w } 5
    · exact cacheLe_refl _

/-- C7 (amended): on any reachable ring, raising one node's weight to
`w + 1` (A) preserves every node's cached hash values: each cache keeps
its entries (the first `len` values are unchanged) and can only grow —
this half of the claim always holds; and (B) adds exactly the one new
position `hash(itoa(w) + key)` to the ring — this half holds when the
iterative balancer is skipped (fewer than 2 registered nodes, or default
replica count below 10).  When the balancer runs, pass deltas can change
other nodes' working weights and the ring can gain or lose many
positions (`stable_growth_counterexample`). -/
theorem stable_growth_amended (dF : Int → Int → Int → Int → Int) (r : Int)
    (fn : String → Nat) (ops : List Op) (m : Map) (hm : m = runOps dF r fn ops)
    (key : String) (w : Int) :
    (∀ k hs, alookup m.hashs k = some hs →
        ∃ hs', alookup ((AddWithWeight dF m key (w + 1)).1).hashs k = some hs'
          ∧ hs.length ≤ hs'.length
          ∧ ∀ i, i < hs.length → hs.getD i 0 = hs'.getD i 0)
    ∧ (alookup m.replicas key = some w → 1 ≤ w →
        (m.replicas.length ≤ 1 ∨ r < 10) →
        ((AddWithWeight dF m key (w + 1)).1).keys.Perm
            (m.keys ++ [hv m (toString w.toNat ++ key)])
          ∧ ((AddWithWeight dF m key (w + 1)).1).keys.length = m.keys.length + 1) := by
  have hst : StInv r fn m := by rw [hm]; exact runOps_StInv dF r fn ops
  have hsh : Shaped dF r fn m := by rw [hm]; exact runOps_Shaped dF r fn ops
  have hst' : StInv r fn ((AddWithWeight dF m key (w + 1)).1) :=
    AddWithWeight_StInv dF r fn m key (w + 1) hst
  constructor
  · intro k hs hlk
    obtain ⟨hs', hlk', hlen⟩ := AddWithWeight_cacheLe dF m key (w + 1) k hs hlk
    refine ⟨hs', hlk', hlen, ?_⟩
    intro i hi
    have h1 := hst.2.2.2 k hs hlk i hi
    have h2 := hst'.2.2.2 k hs' hlk' i (lt_of_lt_of_le hi hlen)
    rw [h1, h2]
    simp only [hv, hst.1, hst'.1]
  · intro hlk hwpos hskip
    rcases hsh with hnew | ⟨d, hdk, hdh, hdr, hdnd, hdok, hdrep, hmeq⟩
    · rw [hnew] at hlk
      simp [New, alookup, List.find?] at hlk
    have hskipd : (calcRing d d.replicas).replicas.length ≤ 1
        ∨ (calcRing d d.replicas).replica < 10 := by
      rw [calcRing_replicas, calcRing_replica, hdrep, hdr]
      exact hskip
    have hmcal : m = calcRing d d.replicas := by
      rw [hmeq, adjust_eq_of_dirty dF d 5 hdk, if_pos hskipd]
    have hfind : (m.replicas.find? (fun p => p.1 == key)).isSome = true :=
      find_isSome_of_alookup m.replicas key w hlk
    have hne1 : ¬ (w + 1 < 1) := by omega
    have hne2 : (alookup m.replicas key).getD 0 ≠ w + 1 := by
      rw [hlk]
      simp only [Option.getD_some]
      omega
    set d' : Map := { m with keys := [], replicas := aset m.replicas key (w + 1) } with hd'
    have hm' : (AddWithWeight dF m key (w + 1)).1 = adjust dF d' 5 := by
      simp only [AddWithWeight]
      rw [if_neg hne1, if_pos hne2]
    have hlenaset : (aset m.replicas key (w + 1)).length = m.replicas.length :=
      aset_length_found m.replicas key (w + 1) hfind
    have hskipd' : (calcRing d' d'.replicas).replicas.length ≤ 1
        ∨ (calcRing d' d'.replicas).replica < 10 := by
      rw [calcRing_replicas, calcRing_replica]
      show (aset m.replicas key (w + 1)).length ≤ 1 ∨ m.replica < 10
      rw [hlenaset, hst.2.1]
      exact hskip
    have hm'cal : (AddWithWeight dF m key (w + 1)).1 = calcRing d' d'.replicas := by
      rw [hm', adjust_eq_of_dirty dF d' 5 rfl, if_pos hskipd']
    have hokm : cachesOk m m.hashs := hst.2.2.2
    have hokd' : cachesOk d' d'.hashs := cachesOk_congr m d' m.hashs rfl hokm
    have hkeys' : ((AddWithWeight dF m key (w + 1)).1).keys
        = (((aset m.replicas key (w + 1)).map
            (fun kr => usedOf m kr.1 kr.2)).flatten).insertionSort (· ≤ ·) := by
      have hmap : d'.replicas.map (fun kr => usedOf d' kr.1 kr.2)
          = (aset m.replicas key (w + 1)).map (fun kr => usedOf m kr.1 kr.2) :=
        List.map_congr_left (fun kr _ => usedOf_hash_congr d' m rfl kr.1 kr.2)
      rw [hm'cal, calcRing_keys d' d'.replicas hokd', hmap]
    have hhashdm : d.hash = m.hash := by rw [hdh, hst.1]
    have hkeysm : m.keys
        = ((m.replicas.map (fun kr => usedOf m kr.1 kr.2)).flatten).insertionSort (· ≤ ·) := by
      have h1 : m.keys
          = ((d.replicas.map (fun kr => usedOf d kr.1 kr.2)).flatten).insertionSort (· ≤ ·) := by
        rw [hmcal]
        exact calcRing_keys d d.replicas hdok
      have hmap : d.replicas.map (fun kr => usedOf d kr.1 kr.2)
          = m.replicas.map (fun kr => usedOf m kr.1 kr.2) := by
        rw [hdrep]
        exact List.map_congr_left (fun kr _ => usedOf_hash_congr d m hhashdm kr.1 kr.2)
      rw [h1, hmap]
    have hmem : (key, w) ∈ m.replicas := alookup_some_mem m.replicas key w hlk
    have hasf : aset m.replicas key (w + 1)
        = m.replicas.map (fun p => if p.1 == key then (key, w + 1) else p) := by
      simp only [aset, if_pos hfind]
    have hp1 : ((AddWithWeight dF m key (w + 1)).1).keys.Perm
        (((aset m.replicas key (w + 1)).map (fun kr => usedOf m kr.1 kr.2)).flatten) := by
      rw [hkeys']
      exact List.perm_insertionSort _ _
    have hp2 : (((aset m.replicas key (w + 1)).map
          (fun kr => usedOf m kr.1 kr.2)).flatten).Perm
        ((m.replicas.map (fun kr => usedOf m kr.1 kr.2)).flatten
          ++ [hv m (toString w.toNat ++ key)]) := by
      rw [hasf]
      exact flatten_update_perm m key w (by omega) m.replicas hst.2.2.1 hmem
    have hp3 : ((m.replicas.map (fun kr => usedOf m kr.1 kr.2)).flatten
          ++ [hv m (toString w.toNat ++ key)]).Perm
        (m.keys ++ [hv m (toString w.toNat ++ key)]) := by
      rw [hkeysm]
      exact List.Perm.append (List.perm_insertionSort _ _).symm (List.Perm.refl _)
    have hfinal := (hp1.trans hp2).trans hp3
    refine ⟨hfinal, ?_⟩
    have hlen := hfinal.length_eq
    simp only [List.length_append, List.length_cons, List.length_nil] at hlen
    omega

/-- Witness for `stable_growth_amended`: ring `New(3, numHash)` after
`Add("6","4")`; raising node "6" from weight 3 to 4 keeps its cache
prefix `[6, 16, 26]` and adds exactly the position 36 to the ring. -/
theorem stable_growth_amended_witness :
    (∃ hs', alookup ((AddWithWeight dZero (runOps dZero 3 numHash [Op.add ["6", "4"]])
          "6" (3 + 1)).1).hashs "6" = some hs'
        ∧ ([6, 16, 26] : List Nat).length ≤ hs'.length
        ∧ ∀ i, i < ([6, 16, 26] : List Nat).length
            → ([6, 16, 26] : List Nat).getD i 0 = hs'.getD i 0)
    ∧ ((AddWithWeight dZero (runOps dZero 3 numHash [Op.add ["6", "4"]]) "6" (3 + 1)).1).keys.Perm
        ((runOps dZero 3 numHash [Op.add ["6", "4"]]).keys
          ++ [hv (runOps dZero 3 numHash [Op.add ["6", "4"]]) (toString (3 : Int).toNat ++ "6")])
    ∧ ((AddWithWeight dZero (runOps dZero 3 numHash [Op.add ["6", "4"]]) "6" (3 + 1)).1).keys.length
        = (runOps dZero 3 numHash [Op.add ["6", "4"]]).keys.length + 1 := by
  obtain ⟨hA, hB⟩ := stable_growth_amended dZero 3 numHash [Op.add ["6", "4"]]
    (runOps dZero 3 numHash [Op.add ["6", "4"]]) rfl "6" 3
  have hBc := hB (by decide) (by decide) (by decide)
  exact ⟨hA "6" [6, 16, 26] (by decide), hBc.1, hBc.2⟩


/-! ## C10: lookups after a balancer-driven ring collapse

The counterexample drives the iterative balancer so that every working
weight ends below 1 on its fifth (final) pass, with every float64 value
exactly representable.  Ring positions live on the grid `2^20 · g`,
`g < 4096`, and all target shares are dyadic (`New(10)`, targets x:12,
y:12, z:8, total 32, shares 3/8, 3/8, 1/4), so each step of
`float64(rep) * (expect - actual) / float64(expect) * 0.75` is exact:
- building x alone skips the balancer (one node); adding y (share 1/2
  each, total 24) gives both nodes exactly half the circle, so every
  delta is exactly 0.0 for five passes and the 24-position ring stands;
- adding z starts the fatal run (total 32).  Pass arcs (grid units of
  the 4096-slot circle) and deltas:
  pass 1: x 1056, y 1536, z 1504 → deltas +2, 0, -2 (weights 14, 12, 6);
  pass 2: same arcs → +3, 0, -2 (17, 12, 4);
  pass 3: x 3840, y 192, z 64 → -19, +7, +2 (x dies at -2; y 19, z 6);
  pass 4: y 3840, z 256 → -21, +3 (y dies at -2; z 9);
  pass 5: z 4096 (alone) → -20 (z dies at -11).
  Every delta above is the exact value of the float expression: e.g.
  pass 3 for x: 17·(3/8 - 15/16) = -9.5625, ÷0.375 = -25.5, ×0.75 =
  -19.125 → -19; pass 5 for z: 9·(0.25 - 1) = -6.75, ÷0.25 = -27,
  ×0.75 = -20.25 → -20 (Go truncates toward zero).
- every pass reports `changed`, so the loop runs all five passes and the
  final `calc` (all weights ≤ 0) leaves `m.keys` empty; the loop bound
  is then reached and `adjust` returns normally.
The resulting state has three registered nodes but an empty ring: Go's
`Get` then panics at `m.hashMap[m.keys[idx]]` (index 0 of an empty
slice) instead of returning a registered node — the model returns
`none`. -/

/-- Ring-position grid slots for node x's virtual keys `"0x" .. "16x"`
(indices 12-16 are the positions its growing working weight exposes). -/
def xPosC10 : List Nat :=
  [2036, 2037, 2038, 2039, 2040, 2041, 2042, 2043, 2044, 2045, 2046, 2047,
   2034, 2035, 3903, 984, 2502]

/-- Ring-position grid slots for node y's virtual keys `"0y" .. "18y"`. -/
def yPosC10 : List Nat :=
  [4084, 4085, 4086, 4087, 4088, 4089, 4090, 4091, 4092, 4093, 4094, 4095,
   860, 2434, 4079, 4080, 4081, 4082, 4083]

/-- Ring-position grid slots for node z's virtual keys `"0z" .. "8z"`. -/
def zPosC10 : List Nat :=
  [991, 2559, 985, 986, 987, 988, 989, 990, 3000]

/-- The counterexample's hash function: virtual key `"<i><node>"` lands
on the node's grid slot for index `i`, scaled by 2^20. -/
def hC10 (s : String) : Nat :=
  let cs := s.data
  (if cs.getLast? = some 'x' then xPosC10.getD (digitsVal cs.dropLast) 0
   else if cs.getLast? = some 'y' then yPosC10.getD (digitsVal cs.dropLast) 0
   else if cs.getLast? = some 'z' then zPosC10.getD (digitsVal cs.dropLast) 0
   else 0) * 2 ^ 20

/-- The exact value of the Go float expression on every (arc, working
weight, target, total) tuple that occurs in the run (see the section
comment); the two-node phase (total 24) is exactly balanced, delta 0. -/
def dC10 : Int → Int → Int → Int → Int := fun v rep _ W =>
  if W ≠ 32 then 0
  else if v = 1056 * 2 ^ 20 then (if rep = 12 then 2 else 3)
  else if v = 1536 * 2 ^ 20 then 0
  else if v = 1504 * 2 ^ 20 then -2
  else if v = 3840 * 2 ^ 20 then (if rep = 17 then -19 else -21)
  else if v = 192 * 2 ^ 20 then 7
  else if v = 64 * 2 ^ 20 then 2
  else if v = 256 * 2 ^ 20 then 3
  else if v = 4096 * 2 ^ 20 then -20
  else 0

/-- The collapsed state: three weighted adds, the last of which runs the
balancer into total collapse. -/
def mC10 : Map :=
  runOps dC10 10 hC10 [Op.addW "x" 12, Op.addW "y" 12, Op.addW "z" 8]

/-- C10 (counterexample): a reachable state with three registered nodes
(x, y, z — so `IsEmpty` is false and the claim's "at least one node
registered" condition holds) whose ring is empty because the balancer
drove every working weight below 1 on its final pass.  `Get` does not
return a registered node: Go panics on the empty `m.keys` (modelled as
`none`). -/
theorem get_fails_after_balancer_collapse :
    IsEmpty mC10 = false
    ∧ mC10.replicas.map (fun p => p.1) = ["x", "y", "z"]
    ∧ alookup mC10.replicas "x" = some 12
    ∧ mC10.keys = []
    ∧ Get mC10 "0x" = none := by
  exact ⟨by decide, by decide, by decide, by decide, by decide⟩


end ConsistentHash
